import Mathlib

set_option maxRecDepth 8000

/-!
Verification of the Narrava transcript combiner (`script.js` and the
multi-file variant) against its specification.  All string-processing
functions from the JavaScript source are embedded as executable Lean
functions on `List Char`; the ZIP archive writer is embedded on `List Nat`
byte sequences.  Regex-based operations are modelled by explicit scanning
functions implementing the exact leftmost / greedy-with-backtracking
semantics of the JavaScript regexes they translate.
-/

/-! ## JavaScript character classes

`isJsWs` is the JavaScript `\s` character class (also the set trimmed by
`String.prototype.trim`): tab, LF, VT, FF, CR, space, NBSP, Ogham space,
the U+2000–U+200A range, LS, PS, NNBSP, MMSP, ideographic space and BOM.
Note U+200B (zero-width space) is NOT JavaScript whitespace. -/
def isJsWs (c : Char) : Bool :=
  c.toNat = 32 || c.toNat = 9 || c.toNat = 10 || c.toNat = 11 || c.toNat = 12 ||
  c.toNat = 13 || c.toNat = 160 || c.toNat = 5760 ||
  (8192 ≤ c.toNat && c.toNat ≤ 8202) || c.toNat = 8232 || c.toNat = 8233 ||
  c.toNat = 8239 || c.toNat = 8287 || c.toNat = 12288 || c.toNat = 65279

/-- Drop trailing JS whitespace (the right half of `String.prototype.trim`). -/
def dropTrailWs (l : List Char) : List Char :=
  (l.reverse.dropWhile isJsWs).reverse

/-- JavaScript `String.prototype.trim`. -/
def trimJS (l : List Char) : List Char :=
  dropTrailWs (l.dropWhile isJsWs)

/-! ## The on-screen-text marker regex

`/on[-\s]?screen\s*text\s*:\s*/i`, matched anchored at the head of the
list; returns the remainder after the match.  The optional `[-\s]?` needs
no backtracking because `'s'` (the next required character) is neither a
hyphen nor whitespace, and each greedy `\s*` is followed by a required
non-whitespace character. -/
def matchCI (pat : List Char) (l : List Char) : Option (List Char) :=
  match pat, l with
  | [], rest => some rest
  | _ :: _, [] => none
  | p :: ps, c :: cs => if c.toLower = p then matchCI ps cs else none

def onScreenMarkerAt (l : List Char) : Option (List Char) :=
  match matchCI ['o', 'n'] l with
  | none => none
  | some l1 =>
    let l2 := match l1 with
      | c :: cs => if c = '-' || isJsWs c then cs else l1
      | [] => l1
    match matchCI ['s', 'c', 'r', 'e', 'e', 'n'] l2 with
    | none => none
    | some l3 =>
      match matchCI ['t', 'e', 'x', 't'] (l3.dropWhile isJsWs) with
      | none => none
      | some l4 =>
        match l4.dropWhile isJsWs with
        | c :: l5 => if c = ':' then some (l5.dropWhile isJsWs) else none
        | [] => none

/-- Global (g-flag) removal of every on-screen-text marker occurrence,
scanning left to right (`.replace(/on[-\s]?screen\s*text\s*:\s*/gi, "")`).
Fuel-based so that it is structurally recursive; a match always consumes
at least one character, so fuel `l.length` suffices. -/
def removeMarkersF : Nat → List Char → List Char
  | 0, _ => []
  | _ + 1, [] => []
  | f + 1, c :: rest =>
    match onScreenMarkerAt (c :: rest) with
    | some remaining => removeMarkersF f remaining
    | none => c :: removeMarkersF f rest

def isLowerAlnum (c : Char) : Bool :=
  ('a' ≤ c && c ≤ 'z') || ('0' ≤ c && c ≤ '9')

/-- `normalizeForCompare` from `script.js`: lower-case, strip all on-screen
marker occurrences, delete every character outside `[a-z0-9]`
(a global replace of `[^a-z0-9]+` by the empty string is exactly a
filter), then `trim`. -/
def normalizeForCompare (s : List Char) : List Char :=
  let low := s.map Char.toLower
  trimJS ((removeMarkersF low.length low).filter isLowerAlnum)

/-! ## Roles and entries -/

/-- The three role strings `"Description"`, `"On-screen text"`, `"Speaker"`
used by `script.js` are embedded as an inductive type; `roleLabel` recovers
the exact string. -/
inductive Role
  | description
  | onScreenText
  | speaker
deriving DecidableEq, Repr

def roleLabel : Role → List Char
  | Role.description => "Description".toList
  | Role.onScreenText => "On-screen text".toList
  | Role.speaker => "Speaker".toList

/-- `momentOrderValue` from `script.js` (the `default: 3` branch is
unreachable for the three role values). -/
def momentOrderValue : Role → Nat
  | Role.description => 0
  | Role.onScreenText => 1
  | Role.speaker => 2

structure Entry where
  startMs : Nat
  role : Role
  text : List Char
deriving DecidableEq, Repr

/-! ## Windowed near-duplicate suppression (`dedupeNearDuplicates`)

The JS loop keeps a forward accumulator `result` and scans it backward
(`j = result.length-1` down to `0`), breaking when the time gap exceeds
the window.  We keep the accumulator reversed (`revRes`, newest first);
`scanRev` is the backward scan: it returns `some newRev` when a duplicate
was found (with the role-upgrade replacement applied in place) and `none`
when the scan broke or was exhausted without a match.  `startMs` values
are naturals; JS computes a possibly negative gap which compares to the
window exactly as truncated subtraction does (negative > w and 0 > w are
both false for w ≥ 0). -/
def scanRev (current : Entry) (nrm : List Char) (windowMs : Nat) :
    List Entry → Option (List Entry)
  | [] => none
  | prev :: rest =>
    if current.startMs - prev.startMs > windowMs then none
    else if normalizeForCompare prev.text = nrm then
      some ((if prev.role ≠ Role.speaker ∧ current.role = Role.speaker
             then current else prev) :: rest)
    else (scanRev current nrm windowMs rest).map (fun r => prev :: r)

def dedupeStep (windowMs : Nat) (revRes : List Entry) (current : Entry) :
    List Entry :=
  match scanRev current (normalizeForCompare current.text) windowMs revRes with
  | some newRev => newRev
  | none => current :: revRes

def dedupeNearDuplicates (items : List Entry) (windowMs : Nat) : List Entry :=
  (items.foldl (dedupeStep windowMs) []).reverse

/-! ## The comparator sort

`[...spoken, ...desc].sort((a,b) => startMs diff, then momentOrderValue
diff)`.  JavaScript's `Array.prototype.sort` is a stable sort and the
comparator is a total preorder, so its result is the unique stable order;
we embed it as a stable insertion sort: `entryLt a b` holds exactly when
the comparator returns a negative number on `(a, b)`, and an element is
inserted after every element strictly smaller than it. -/
def entryLt (a b : Entry) : Bool :=
  a.startMs < b.startMs ||
    (a.startMs = b.startMs && momentOrderValue a.role < momentOrderValue b.role)

def insertEntry (a : Entry) : List Entry → List Entry
  | [] => [a]
  | b :: l => if entryLt b a then b :: insertEntry a l else a :: b :: l

def sortEntries : List Entry → List Entry
  | [] => []
  | a :: rest => insertEntry a (sortEntries rest)

/-- Steps 1–2 of the Merge Engine as delimited by claim C2: the stable
sort by start time and role priority, followed by the windowed dedup. -/
def mergeEngine (entries : List Entry) : List Entry :=
  dedupeNearDuplicates (sortEntries entries) 750

def isAsciiAlpha (c : Char) : Bool :=
  ('a' ≤ c && c ≤ 'z') || ('A' ≤ c && c ≤ 'Z')

/-! ## The identifier extractor (`extractYtpId`)

`s.match(/YTP26-(\d{3})([a-zA-Z])?/i)` followed by
`return `YTP26-${digits}${letter.toLowerCase()}``: the regex is scanned
for its leftmost occurrence; `ytpAt` is the anchored attempt (the `/i`
flag affects only the three letters `Y`, `T`, `P`; `\d` is `[0-9]` and
the optional group is greedy). -/
def ytpCond (c1 c2 c3 c4 c5 c6 d1 d2 d3 : Char) : Prop :=
  c1.toLower = 'y' ∧ c2.toLower = 't' ∧ c3.toLower = 'p' ∧ c4 = '2' ∧
  c5 = '6' ∧ c6 = '-' ∧ d1.isDigit = true ∧ d2.isDigit = true ∧
  d3.isDigit = true

instance decYtpCond (c1 c2 c3 c4 c5 c6 d1 d2 d3 : Char) :
    Decidable (ytpCond c1 c2 c3 c4 c5 c6 d1 d2 d3) := by
  unfold ytpCond; infer_instance

/-- The canonical identifier built from a match:
`\`YTP26-${digits}${letter}\`` with the optional letter lowercased. -/
def ytpTail (rest : List Char) : List Char :=
  match rest with
  | c :: _ => if isAsciiAlpha c then [c.toLower] else []
  | [] => []

def ytpCanon (d1 d2 d3 : Char) (rest : List Char) : List Char :=
  "YTP26-".toList ++ [d1, d2, d3] ++ ytpTail rest

def ytpAt (l : List Char) : Option (List Char) :=
  match l with
  | c1 :: c2 :: c3 :: c4 :: c5 :: c6 :: d1 :: d2 :: d3 :: rest =>
    if ytpCond c1 c2 c3 c4 c5 c6 d1 d2 d3 then some (ytpCanon d1 d2 d3 rest)
    else none
  | _ => none

def extractYtpId : List Char → Option (List Char)
  | [] => none
  | c :: rest =>
    match ytpAt (c :: rest) with
    | some r => some r
    | none => extractYtpId rest

/-! ## The Orchestrator's output decision (claim C8)

From the multi-file combine-click handler: after the pairing loop builds
`outputs`, the handler reports "no matching pairs" for zero outputs,
offers the single file directly for one, and otherwise builds a zip of
all outputs and offers it under the name
`` `Narrava_Combined_${outputs.length}_files.zip` ``. -/

structure OutputFile where
  name : String
  content : String
deriving DecidableEq, Repr

inductive DownloadResult
  | noMatch
  | single (name content : String)
  | zipped (zipName : String) (files : List OutputFile)
deriving DecidableEq, Repr

def handleOutputs : List OutputFile → DownloadResult
  | [] => DownloadResult.noMatch
  | [o] => DownloadResult.single o.name o.content
  | outputs =>
    DownloadResult.zipped
      ("Narrava_Combined_" ++ toString outputs.length ++ "_files.zip") outputs


/-! ## The Text Normalizer (`cleanSrtText`)

Each regex pass of `cleanSrtText` becomes one scanning function.  The
fuel-based ones mirror the left-to-right, non-overlapping global-replace
semantics: at each position the pattern is attempted (greedy, with the
backtracking the pattern admits); on a match scanning resumes after the
match, otherwise one character is emitted.  Every recursive call consumes
at least one input character, so fuel `l.length` suffices everywhere. -/

/-- `out.replace(/<[^>]+>/g, "")`.  At a `'<'`, the greedy `[^>]+` runs to
the character before the first `'>'` of the remainder; the match succeeds
iff such a `'>'` exists and at least one character precedes it. -/
def stripTagsF : Nat → List Char → List Char
  | 0, _ => []
  | _ + 1, [] => []
  | f + 1, c :: rest =>
    if c = '<' then
      match rest.dropWhile (fun x => !(x = '>')) with
      | _ :: suf =>
        if (rest.takeWhile (fun x => !(x = '>'))).isEmpty then
          c :: stripTagsF f rest
        else stripTagsF f suf
      | [] => c :: stripTagsF f rest
    else c :: stripTagsF f rest

def stripTags (l : List Char) : List Char := stripTagsF l.length l

def lbrace : Char := Char.ofNat 123
def rbrace : Char := Char.ofNat 125

/-- `out.replace(/\x7b[^\x7d]*\x7d/g, "")` (the SRT styling braces).  The
`*` admits the empty inner match, so a left brace matches exactly when a
right brace occurs anywhere after it. -/
def stripBracesF : Nat → List Char → List Char
  | 0, _ => []
  | _ + 1, [] => []
  | f + 1, c :: rest =>
    if c = lbrace then
      match rest.dropWhile (fun x => !(x = rbrace)) with
      | _ :: suf => stripBracesF f suf
      | [] => c :: stripBracesF f rest
    else c :: stripBracesF f rest

def stripBraces (l : List Char) : List Char := stripBracesF l.length l

def zwspChar : Char := Char.ofNat 8203

/-- `out.replace(/​/g, "")`: a single-character global replace is a
filter. -/
def stripZwsp (l : List Char) : List Char :=
  l.filter (fun c => !(c = zwspChar))

/-- The ECMAScript LineTerminator set: LF, CR, LS (U+2028), PS (U+2029). -/
def isLineTerm (c : Char) : Bool :=
  c = '\n' || c = '\r' || c.toNat = 8232 || c.toNat = 8233

/-- `$` of a multiline JS regex: position `m` is a line end when it is the
end of the input or the next character is a line terminator. -/
def lineEndAt (l : List Char) (m : Nat) : Bool :=
  m = l.length || isLineTerm (l.getD m 'x')

def bestMAux (l : List Char) : Nat → Option Nat
  | 0 => none
  | m + 1 => if lineEndAt l (m + 1) then some (m + 1) else bestMAux l m

/-- The greedy-with-backtracking match of `/\s+$/m` anchored at the head
of `l`: the largest `m ≥ 1` such that the first `m` characters are all
whitespace and position `m` is a line end (the search starts from the
length of the whitespace run, which bounds every match). -/
def bestM (l : List Char) : Option Nat :=
  bestMAux l (l.takeWhile isJsWs).length

/-- `out.replace(/\s+$/gm, "")`. -/
def rstripF : Nat → List Char → List Char
  | 0, _ => []
  | _ + 1, [] => []
  | f + 1, c :: rest =>
    if isJsWs c then
      match bestM (c :: rest) with
      | some m => rstripF f ((c :: rest).drop m)
      | none => c :: rstripF f rest
    else c :: rstripF f rest

def rstripLines (l : List Char) : List Char := rstripF l.length l

/-- Replace every maximal run of `p`-characters by the single character
`o`; used for `[\t\f\v]+` → `" "`, `\n{2,}` → `"\n"` (a lone newline is
unchanged either way) and `\s+` → `" "`. -/
def collapseRunsF (p : Char → Bool) (o : Char) : Nat → List Char → List Char
  | 0, _ => []
  | _ + 1, [] => []
  | f + 1, c :: rest =>
    if p c then o :: collapseRunsF p o f (rest.dropWhile p)
    else c :: collapseRunsF p o f rest

/-- The `[\t\f\v]` class. -/
def isHorizWs (c : Char) : Bool :=
  c.toNat = 9 || c.toNat = 12 || c.toNat = 11

def collapseHoriz (l : List Char) : List Char :=
  collapseRunsF isHorizWs ' ' l.length l

def collapseNl (l : List Char) : List Char :=
  collapseRunsF (fun c => c = '\n') '\n' l.length l

/-- `cleanSrtText` from `script.js`: strip HTML tags, strip brace
directives, drop zero-width spaces, strip trailing whitespace per line,
collapse horizontal-control whitespace runs to one space, collapse newline
runs, and trim. -/
def cleanSrtText (s : List Char) : List Char :=
  trimJS (collapseNl (collapseHoriz (rstripLines (stripZwsp
    (stripBraces (stripTags s))))))

/-! ## The Track Parser (`parseSrtToBlocks`) -/

/-- `.replace(/\r\n/g, "\n")`. -/
def replCRLF : List Char → List Char
  | [] => []
  | [c] => [c]
  | c1 :: c2 :: rest =>
    if c1 = '\r' ∧ c2 = '\n' then '\n' :: replCRLF rest
    else c1 :: replCRLF (c2 :: rest)

/-- `.replace(/\r/g, "\n")`. -/
def replCR (l : List Char) : List Char :=
  l.map (fun c => if c = '\r' then '\n' else c)

/-- `.split("\n")` after newline normalization. -/
def srtLines (s : List Char) : List (List Char) :=
  List.splitOn '\n' (replCR (replCRLF s))

/-- `/^\d+$/.test(lines[i].trim())`. -/
def isIndexLine (l : List Char) : Bool :=
  !(trimJS l).isEmpty && (trimJS l).all Char.isDigit

def digits2 (l : List Char) : Option (Nat × List Char) :=
  match l with
  | a :: b :: rest =>
    if a.isDigit && b.isDigit then
      some ((a.toNat - 48) * 10 + (b.toNat - 48), rest)
    else none
  | _ => none

def digits3 (l : List Char) : Option (Nat × List Char) :=
  match l with
  | a :: b :: c :: rest =>
    if a.isDigit && b.isDigit && c.isDigit then
      some ((a.toNat - 48) * 100 + (b.toNat - 48) * 10 + (c.toNat - 48), rest)
    else none
  | _ => none

def expectCh (c : Char) : List Char → Option (List Char)
  | x :: rest => if x = c then some rest else none
  | [] => none

/-- One `HH:MM:SS,mmm` group of the timecode regex, already converted by
`hhmmssToMs` to `((H*60+M)*60+S)*1000+ms`. -/
def timePart (l : List Char) : Option (Nat × List Char) :=
  match digits2 l with
  | none => none
  | some (hh, l1) =>
    match expectCh ':' l1 with
    | none => none
    | some l2 =>
      match digits2 l2 with
      | none => none
      | some (mm, l3) =>
        match expectCh ':' l3 with
        | none => none
        | some l4 =>
          match digits2 l4 with
          | none => none
          | some (ss, l5) =>
            match expectCh ',' l5 with
            | none => none
            | some l6 =>
              match digits3 l6 with
              | none => none
              | some (ms, l7) =>
                some (((hh * 60 + mm) * 60 + ss) * 1000 + ms, l7)

/-- The timecode regex
`(\d{2}):(\d{2}):(\d{2}),(\d{3})\s*-->\s*(\d{2}):(\d{2}):(\d{2}),(\d{3})`
attempted at the head of the list; on success returns the start
milliseconds computed from the first four groups.  Both `\s*` are
deterministic (whitespace never overlaps `-` or a digit). -/
def timecodeAt (l : List Char) : Option Nat :=
  match timePart l with
  | none => none
  | some (startMs, l1) =>
    match expectCh '-' (l1.dropWhile isJsWs) with
    | none => none
    | some l2 =>
      match expectCh '-' l2 with
      | none => none
      | some l3 =>
        match expectCh '>' l3 with
        | none => none
        | some l4 =>
          match timePart (l4.dropWhile isJsWs) with
          | none => none
          | some _ => some startMs

/-- `timecodeRegex.exec(line)`: leftmost match. -/
def execTimecode : List Char → Option Nat
  | [] => none
  | c :: rest =>
    match timecodeAt (c :: rest) with
    | some v => some v
    | none => execTimecode rest

structure Block where
  startMs : Nat
  text : List Char
deriving DecidableEq, Repr

/-- The `while (i < lines.length)` loop of `parseSrtToBlocks`, as a
recursion on the remaining lines: optionally skip an index line, require
a timecode match on the next line (else advance one line), collect the
following non-blank lines as the cue text, skip the blank separator, and
emit a block when the cleaned text is non-empty.  Each iteration consumes
at least one line, so fuel `lines.length` suffices. -/
def parseLoopF : Nat → List (List Char) → List Block
  | 0, _ => []
  | _ + 1, [] => []
  | f + 1, l0 :: rest =>
    match (if isIndexLine l0 then rest else l0 :: rest) with
    | [] => []
    | l1 :: rest1 =>
      match execTimecode l1 with
      | none => parseLoopF f rest1
      | some startMs =>
        let textLines := rest1.takeWhile (fun l => !(trimJS l).isEmpty)
        let rest2 := rest1.dropWhile (fun l => !(trimJS l).isEmpty)
        let rest3 := rest2.dropWhile (fun l => (trimJS l).isEmpty)
        let text := cleanSrtText (List.intercalate ['\n'] textLines)
        (if (trimJS text).isEmpty then []
         else [{ startMs := startMs, text := text }]) ++ parseLoopF f rest3

def parseSrtToBlocks (s : List Char) : List Block :=
  parseLoopF (srtLines s).length (srtLines s)

/-! ## The Tagger, adjacent-speaker merge and Renderer -/

/-- `.split(/\n+/).map(l => l.trim()).filter(Boolean)`: splitting on
single newlines and filtering the empties is the same list. -/
def splitTrimLines (s : List Char) : List (List Char) :=
  ((List.splitOn '\n' s).map trimJS).filter (fun l => !l.isEmpty)

def joinSpace (ls : List (List Char)) : List Char :=
  List.intercalate [' '] ls

/-- `onScreenRegex.test(first)` with the regex's leading `^\s*`. -/
def markerTest (l : List Char) : Bool :=
  (onScreenMarkerAt (l.dropWhile isJsWs)).isSome

/-- `first.replace(onScreenRegex, "")`: anchored, non-global. -/
def stripMarker (l : List Char) : List Char :=
  match onScreenMarkerAt (l.dropWhile isJsWs) with
  | some rest => rest
  | none => l

def tagDescriptiveBlocks (blocks : List Block) : List Entry :=
  blocks.map (fun b =>
    let lines := splitTrimLines b.text
    if markerTest (lines.headD []) then
      { startMs := b.startMs, role := Role.onScreenText,
        text := joinSpace (trimJS (stripMarker (lines.headD [])) :: lines.tail) }
    else
      { startMs := b.startMs, role := Role.description,
        text := joinSpace lines })

def joinLinesPreservingSentence (s : List Char) : List Char :=
  joinSpace (splitTrimLines s)

def tagSpokenBlocks (blocks : List Block) : List Entry :=
  blocks.map (fun b =>
    { startMs := b.startMs, role := Role.speaker,
      text := joinLinesPreservingSentence b.text })

/-- `` `${last.text} ${item.text}`.replace(/\s+/g, " ").trim() ``. -/
def squashWs (l : List Char) : List Char :=
  trimJS (collapseRunsF isJsWs ' ' l.length l)

def mergeSpeakerStep (merged : List Entry) (item : Entry) : List Entry :=
  match merged with
  | last :: restm =>
    if last.role = Role.speaker ∧ item.role = Role.speaker then
      { startMs := last.startMs, role := last.role,
        text := squashWs (last.text ++ ' ' :: item.text) } :: restm
    else item :: last :: restm
  | [] => [item]

def mergeAdjacentSpeakers (items : List Entry) : List Entry :=
  (items.foldl mergeSpeakerStep []).reverse

def renderEntry (e : Entry) : List Char :=
  roleLabel e.role ++ ':' :: ' ' :: e.text

/-- `paragraphs.join("\n\n")`. -/
def renderTranscript (items : List Entry) : List Char :=
  List.intercalate ['\n', '\n'] (items.map renderEntry)

/-- `combineTranscripts` from `script.js`. -/
def combineTranscripts (spokenSrt descriptiveSrt : List Char) : List Char :=
  let spoken := tagSpokenBlocks (parseSrtToBlocks spokenSrt)
  let desc := tagDescriptiveBlocks (parseSrtToBlocks descriptiveSrt)
  let combined := sortEntries (spoken ++ desc)
  let deduped := dedupeNearDuplicates combined 750
  let mergedSpeakers := mergeAdjacentSpeakers deduped
  renderTranscript mergedSpeakers

/-! ## Fixed-point predicates for the normalizer stages (claim C7)

Each predicate characterizes the strings on which one regex pass of
`cleanSrtText` finds no match; the idempotence proof shows every stage's
output satisfies, and every later stage preserves, the predicates of the
earlier stages. -/

/-- No occurrence of `<[^>]+>`: every `'<'` is either immediately
followed by `'>'` (the `+` cannot match) or has no `'>'` anywhere after
it. -/
def noTag : List Char → Bool
  | [] => true
  | c :: rest =>
    if c = '<' then
      if rest.head? = some '>' then noTag rest else !decide ('>' ∈ rest)
    else noTag rest

/-- No occurrence of `\x7b[^\x7d]*\x7d`: no right brace occurs after any
left brace. -/
def noBrace : List Char → Bool
  | [] => true
  | c :: rest =>
    if c = lbrace then !decide (rbrace ∈ rest) else noBrace rest

/-- No occurrence of `/\s+$/m`: no whitespace character stands
immediately before a line terminator or before the end of the input. -/
def noTrailWs : List Char → Bool
  | [] => true
  | [c] => !isJsWs c
  | c1 :: c2 :: rest => !(isJsWs c1 && isLineTerm c2) && noTrailWs (c2 :: rest)

/-- No two adjacent characters both satisfy `p` (so a run-collapsing
replace that rewrites each `p`-character to itself finds nothing to
change). -/
def noDouble (p : Char → Bool) : List Char → Bool
  | [] => true
  | [_] => true
  | c1 :: c2 :: rest => !(p c1 && p c2) && noDouble p (c2 :: rest)

/-- `SubstEdit P l l2`: `l2` is obtained from `l` by deleting some
`P`-characters and replacing some `P`-characters by `P`-characters that
are either a space or the character itself.  Every whitespace-only
normalizer stage is such an edit, and the tag/brace/trailing-whitespace
fixed-point predicates are preserved by such edits. -/
inductive SubstEdit (P : Char → Bool) : List Char → List Char → Prop
  | nil : SubstEdit P [] []
  | keep (c : Char) {l l2 : List Char} :
      SubstEdit P l l2 → SubstEdit P (c :: l) (c :: l2)
  | del (c : Char) {l l2 : List Char} :
      P c = true → SubstEdit P l l2 → SubstEdit P (c :: l) l2
  | subst (c o : Char) {l l2 : List Char} :
      P c = true → P o = true → (o = ' ' ∨ o = c) →
      SubstEdit P l l2 → SubstEdit P (c :: l) (o :: l2)

/-! ## The hand-rolled ZIP writer (`ZipWriter`, multi-file variant)

Bytes are `Nat`s below 256; `setUint16`/`setUint32` truncate, which the
`% 256` positional bytes reproduce.  `addFile` captures
`localHeaderOffset = this.offset` after pushing the local header, name
and data but before incrementing the offset, so it names the position at
which that local header begins. -/

def u16le (n : Nat) : List Nat := [n % 256, n / 256 % 256]

def u32le (n : Nat) : List Nat :=
  [n % 256, n / 256 % 256, n / 65536 % 256, n / 16777216 % 256]

/-- One round of the CRC-32 shift: `(c & 1) ? 0xEDB88320 ^ (c >>> 1) : (c >>> 1)`. -/
def crc8 (c : Nat) : Nat :=
  if c % 2 = 1 then Nat.xor 0xEDB88320 (c / 2) else c / 2

def crc8x8 (c : Nat) : Nat :=
  crc8 (crc8 (crc8 (crc8 (crc8 (crc8 (crc8 (crc8 c)))))))

/-- `ZipWriter.crc32`: `c = ~0`, per byte `c ^= b` then eight shift
rounds, finally `~c >>> 0`. -/
def crc32 (buf : List Nat) : Nat :=
  Nat.xor 4294967295 (buf.foldl (fun c b => crc8x8 (Nat.xor c b)) 4294967295)

/-- An input to `addFile`: encoded name bytes, data bytes, and the DOS
time/date words computed from `new Date()` (kept abstract). -/
structure ZFile where
  name : List Nat
  data : List Nat
  modTime : Nat
  modDate : Nat

/-- The 30-byte local file header written by `addFile`. -/
def localHeader (f : ZFile) : List Nat :=
  u32le 0x04034b50 ++ u16le 20 ++ u16le 0 ++ u16le 0 ++ u16le f.modTime ++
  u16le f.modDate ++ u32le (crc32 f.data) ++ u32le f.data.length ++
  u32le f.data.length ++ u16le f.name.length ++ u16le 0

/-- The 46-byte central directory header; its last four bytes are the
little-endian local header offset. -/
def centralHeader (f : ZFile) (localHeaderOffset : Nat) : List Nat :=
  u32le 0x02014b50 ++ u16le 20 ++ u16le 20 ++ u16le 0 ++ u16le 0 ++
  u16le f.modTime ++ u16le f.modDate ++ u32le (crc32 f.data) ++
  u32le f.data.length ++ u32le f.data.length ++ u16le f.name.length ++
  u16le 0 ++ u16le 0 ++ u16le 0 ++ u16le 0 ++ u32le 0 ++
  u32le localHeaderOffset

/-- The first 42 bytes of a central directory header (everything before
the local-header-offset field). -/
def cdPre (f : ZFile) : List Nat :=
  u32le 0x02014b50 ++ u16le 20 ++ u16le 20 ++ u16le 0 ++ u16le 0 ++
  u16le f.modTime ++ u16le f.modDate ++ u32le (crc32 f.data) ++
  u32le f.data.length ++ u32le f.data.length ++ u16le f.name.length ++
  u16le 0 ++ u16le 0 ++ u16le 0 ++ u16le 0 ++ u32le 0

/-- The 22-byte end-of-central-directory record. -/
def eocd (count centralSize centralStart : Nat) : List Nat :=
  u32le 0x06054b50 ++ u16le 0 ++ u16le 0 ++ u16le count ++ u16le count ++
  u32le centralSize ++ u32le centralStart ++ u16le 0

structure ZipState where
  offset : Nat
  chunks : List (List Nat)
  centralDirectory : List (List Nat × List Nat)

/-- `ZipWriter.addFile`: push local header, name bytes and data, record
`localHeaderOffset = this.offset`, advance the offset, and append the
central directory entry `(header, nameBytes)`. -/
def addFile (st : ZipState) (f : ZFile) : ZipState :=
  { offset := st.offset + (30 + f.name.length + f.data.length),
    chunks := st.chunks ++ [localHeader f, f.name, f.data],
    centralDirectory :=
      st.centralDirectory ++ [(centralHeader f st.offset, f.name)] }

/-- The central directory loop of `toUint8Array`: push each entry's
header and name, advancing the offset. -/
def centralLoop (st : ZipState) : ZipState :=
  st.centralDirectory.foldl
    (fun s e =>
      { offset := s.offset + (e.1.length + e.2.length),
        chunks := s.chunks ++ [e.1, e.2],
        centralDirectory := s.centralDirectory })
    st

/-- `ZipWriter.toUint8Array`: remember `centralStart`, emit the central
directory, compute `centralSize` as the offset delta, append the
end-of-central-directory record, and concatenate all chunks. -/
def toUint8Array (st : ZipState) : List Nat :=
  let centralStart := st.offset
  let st2 := centralLoop st
  let centralSize := st2.offset - centralStart
  (st2.chunks ++
    [eocd st.centralDirectory.length centralSize centralStart]).flatten

/-- The batch path of `combineAndDownload`: a fresh writer, `addFile`
per file, then `toUint8Array`. -/
def buildZip (files : List ZFile) : List Nat :=
  toUint8Array (files.foldl addFile ⟨0, [], []⟩)

/-! True byte positions in the finished buffer, computed from the file
list alone. -/

/-- Bytes contributed to the local section by one file. -/
def localChunk (f : ZFile) : List Nat := localHeader f ++ f.name ++ f.data

def lcLen (f : ZFile) : Nat := 30 + f.name.length + f.data.length

def cdLen (f : ZFile) : Nat := 46 + f.name.length

/-- Byte position at which file `i`'s local header begins. -/
def localStart (files : List ZFile) (i : Nat) : Nat :=
  ((files.take i).map lcLen).sum

/-- Byte position at which the central directory begins. -/
def cdStart (files : List ZFile) : Nat := (files.map lcLen).sum

/-- Total byte length of the central directory records. -/
def cdSize (files : List ZFile) : Nat := (files.map cdLen).sum

/-- Byte position at which the central directory record of file `i`
begins. -/
def cdRecStart (files : List ZFile) (i : Nat) : Nat :=
  cdStart files + ((files.take i).map cdLen).sum

def zipLen (files : List ZFile) : Nat := cdStart files + cdSize files + 22

def byteAt (buf : List Nat) (i : Nat) : Nat := buf.getD i 0

/-- Read a little-endian 32-bit word at byte position `i`. -/
def readU32 (buf : List Nat) (i : Nat) : Nat :=
  byteAt buf i + 256 * byteAt buf (i + 1) + 65536 * byteAt buf (i + 2) +
    16777216 * byteAt buf (i + 3)

/-- The local section as a flat byte list. -/
def lcBytes : List ZFile → List Nat
  | [] => []
  | f :: rest => localChunk f ++ lcBytes rest

/-- Central directory entries `(header, nameBytes)` for `files` when the
first local header sits at byte `base`. -/
def cdEntries (base : Nat) : List ZFile → List (List Nat × List Nat)
  | [] => []
  | f :: rest => (centralHeader f base, f.name) :: cdEntries (base + lcLen f) rest

/-- Flat bytes of a central directory entry list. -/
def cdBytes : List (List Nat × List Nat) → List Nat
  | [] => []
  | e :: rest => e.1 ++ e.2 ++ cdBytes rest


/-! ## Ordering lemmas for the comparator sort -/

theorem entryLt_iff (a b : Entry) :
    entryLt a b = true ↔
      (a.startMs < b.startMs ∨
       (a.startMs = b.startMs ∧ momentOrderValue a.role < momentOrderValue b.role)) := by
  simp [entryLt]

theorem entryLt_cases (x y z : Entry) (h : entryLt x z = true) :
    entryLt x y = true ∨ entryLt y z = true := by
  simp only [entryLt_iff] at h ⊢
  omega

theorem mem_insertEntry (a x : Entry) (l : List Entry) :
    x ∈ insertEntry a l ↔ x = a ∨ x ∈ l := by
  induction l with
  | nil => simp [insertEntry]
  | cons b l ih =>
    by_cases h : entryLt b a = true
    · simp only [insertEntry, if_pos h, List.mem_cons, ih]
      tauto
    · simp only [insertEntry, if_neg h, List.mem_cons]

theorem insertEntry_pairwise (a : Entry) (l : List Entry)
    (h : List.Pairwise (fun x y => entryLt y x = false) l) :
    List.Pairwise (fun x y => entryLt y x = false) (insertEntry a l) := by
  induction l with
  | nil => simp [insertEntry]
  | cons b l ih =>
    rcases List.pairwise_cons.mp h with ⟨hb, hl⟩
    by_cases hba : entryLt b a = true
    · rw [insertEntry, if_pos hba]
      refine List.pairwise_cons.mpr ⟨?_, ih hl⟩
      intro y hy
      rcases (mem_insertEntry a y l).mp hy with h1 | hy
      · rw [Bool.eq_false_iff]
        intro h0
        rw [h1, entryLt_iff] at h0
        rw [entryLt_iff] at hba
        omega
      · exact hb y hy
    · rw [insertEntry, if_neg hba]
      refine List.pairwise_cons.mpr ⟨?_, h⟩
      intro y hy
      rcases List.mem_cons.mp hy with rfl | hy
      · exact Bool.eq_false_iff.mpr hba
      · rw [Bool.eq_false_iff]
        intro h0
        rcases entryLt_cases y b a h0 with h1 | h1
        · rw [hb y hy] at h1; cases h1
        · rw [Bool.eq_false_iff.mpr hba] at h1; cases h1

theorem sortEntries_pairwise (l : List Entry) :
    List.Pairwise (fun x y => entryLt y x = false) (sortEntries l) := by
  induction l with
  | nil => simp [sortEntries]
  | cons a rest ih => exact insertEntry_pairwise a (sortEntries rest) ih

theorem entryLt_false_le {a b : Entry} (h : entryLt b a = false) :
    a.startMs ≤ b.startMs := by
  have h1 : ¬ entryLt b a = true := by simp [h]
  rw [entryLt_iff] at h1
  omega

theorem entryLt_false_role {a b : Entry} (h : entryLt b a = false)
    (he : a.startMs = b.startMs) :
    momentOrderValue a.role ≤ momentOrderValue b.role := by
  have h1 : ¬ entryLt b a = true := by simp [h]
  rw [entryLt_iff] at h1
  omega

/-! ## The relaxed ordering invariant of the dedup accumulator

A role-upgrade replacement can move a later entry into an earlier
accumulator slot, so the accumulator is not in general sorted by
`startMs`; what does hold is that an earlier element never exceeds a
later one by more than the window. -/

theorem scanRev_some_decomp (cur : Entry) (nrm : List Char) (w : Nat) :
    ∀ rev out, scanRev cur nrm w rev = some out →
      ∃ pre prev post c, rev = pre ++ prev :: post ∧ out = pre ++ c :: post ∧
        (c = cur ∨ c = prev) ∧ (∀ a ∈ pre, cur.startMs - a.startMs ≤ w) ∧
        cur.startMs - prev.startMs ≤ w := by
  intro rev
  induction rev with
  | nil => intro out h; simp [scanRev] at h
  | cons prev rest ih =>
    intro out h
    rw [scanRev] at h
    by_cases hgap : cur.startMs - prev.startMs > w
    · rw [if_pos hgap] at h; cases h
    · rw [if_neg hgap] at h
      by_cases hm : normalizeForCompare prev.text = nrm
      · rw [if_pos hm] at h
        refine ⟨[], prev, rest,
          (if prev.role ≠ Role.speaker ∧ cur.role = Role.speaker then cur else prev),
          rfl, ?_, ?_, by simp, Nat.le_of_not_lt hgap⟩
        · exact (Option.some.inj h).symm
        · by_cases hc : prev.role ≠ Role.speaker ∧ cur.role = Role.speaker
          · rw [if_pos hc]; exact Or.inl rfl
          · rw [if_neg hc]; exact Or.inr rfl
      · rw [if_neg hm] at h
        cases hr : scanRev cur nrm w rest with
        | none => rw [hr] at h; cases h
        | some r =>
          rw [hr] at h
          have h9 : out = prev :: r := by simpa using h.symm
          obtain ⟨pre, pv, post, c, e1, e2, hc, hpre, hpv⟩ := ih r hr
          refine ⟨prev :: pre, pv, post, c, by rw [e1]; rfl, by rw [h9, e2]; rfl, hc, ?_, hpv⟩
          intro a ha
          rcases List.mem_cons.mp ha with rfl | ha
          · exact Nat.le_of_not_lt hgap
          · exact hpre a ha

theorem scanRev_some_mem (cur : Entry) (nrm : List Char) (w : Nat)
    (rev out : List Entry) (h : scanRev cur nrm w rev = some out) :
    ∀ x ∈ out, x ∈ rev ∨ x = cur := by
  obtain ⟨pre, prev, post, c, e1, e2, hc, -, -⟩ := scanRev_some_decomp cur nrm w rev out h
  intro x hx
  rw [e2] at hx
  rcases List.mem_append.mp hx with hx | hx
  · exact Or.inl (e1 ▸ List.mem_append.mpr (Or.inl hx))
  · rcases List.mem_cons.mp hx with rfl | hx
    · rcases hc with rfl | rfl
      · exact Or.inr rfl
      · exact Or.inl (e1 ▸ List.mem_append.mpr (Or.inr (List.mem_cons_self _ _)))
    · exact Or.inl (e1 ▸ List.mem_append.mpr (Or.inr (List.mem_cons_of_mem _ hx)))

theorem dedupe_loop_pairwise (w : Nat) :
    ∀ (items revRes : List Entry),
      (∀ x ∈ revRes, ∀ y ∈ items, x.startMs ≤ y.startMs) →
      List.Pairwise (fun a b => b.startMs ≤ a.startMs + w) revRes →
      List.Pairwise (fun a b : Entry => a.startMs ≤ b.startMs) items →
      List.Pairwise (fun a b => b.startMs ≤ a.startMs + w)
        (items.foldl (dedupeStep w) revRes) := by
  intro items
  induction items with
  | nil => intro revRes _ h2 _; simpa using h2
  | cons cur rest ih =>
    intro revRes h1 h2 h3
    rw [List.foldl_cons]
    rcases List.pairwise_cons.mp h3 with ⟨hcr, h3t⟩
    have hrevcur : ∀ x ∈ revRes, x.startMs ≤ cur.startMs := by
      intro x hx; exact h1 x hx cur (List.mem_cons_self _ _)
    apply ih
    · intro x hx y hy
      cases hsc : scanRev cur (normalizeForCompare cur.text) w revRes with
      | none =>
        rw [dedupeStep, hsc] at hx
        rcases List.mem_cons.mp hx with rfl | hx
        · exact hcr y hy
        · exact h1 x hx y (List.mem_cons_of_mem _ hy)
      | some out =>
        rw [dedupeStep, hsc] at hx
        rcases scanRev_some_mem cur _ w revRes out hsc x hx with hx | rfl
        · exact h1 x hx y (List.mem_cons_of_mem _ hy)
        · exact hcr y hy
    · cases hsc : scanRev cur (normalizeForCompare cur.text) w revRes with
      | none =>
        rw [dedupeStep, hsc]
        refine List.pairwise_cons.mpr ⟨?_, h2⟩
        intro b hb
        exact Nat.le_trans (hrevcur b hb) (Nat.le_add_right _ _)
      | some out =>
        rw [dedupeStep, hsc]
        obtain ⟨pre, prev, post, c, e1, e2, hc, hpre, hprev⟩ :=
          scanRev_some_decomp cur _ w revRes out hsc
        rw [e1] at h2 hrevcur
        rw [e2]
        rw [List.pairwise_append] at h2 ⊢
        rcases h2 with ⟨h2pre, h2cons, h2cross⟩
        rcases List.pairwise_cons.mp h2cons with ⟨h2head, h2post⟩
        have hcpost : ∀ b ∈ post, b.startMs ≤ c.startMs + w := by
          intro b hb
          rcases hc with rfl | rfl
          · refine Nat.le_trans ?_ (Nat.le_add_right _ _)
            exact hrevcur b (List.mem_append.mpr
              (Or.inr (List.mem_cons_of_mem _ hb)))
          · exact h2head b hb
        have hprec : ∀ a ∈ pre, c.startMs ≤ a.startMs + w := by
          intro a ha
          rcases hc with rfl | rfl
          · have := hpre a ha; omega
          · exact h2cross a ha _ (List.mem_cons_self _ _)
        refine ⟨h2pre, List.pairwise_cons.mpr ⟨hcpost, h2post⟩, ?_⟩
        intro a ha b hb
        rcases List.mem_cons.mp hb with rfl | hb
        · exact hprec a ha
        · exact h2cross a ha b (List.mem_cons_of_mem _ hb)
    · exact h3t

/-- Key invariant shared by claims C2 and C3: on a `startMs`-sorted input,
every element of the dedup output is at most `w` later than any element
following it. -/
theorem dedupe_window_pairwise (items : List Entry) (w : Nat)
    (h : List.Pairwise (fun a b : Entry => a.startMs ≤ b.startMs) items) :
    List.Pairwise (fun a b : Entry => a.startMs ≤ b.startMs + w)
      (dedupeNearDuplicates items w) := by
  rw [dedupeNearDuplicates, List.pairwise_reverse]
  exact dedupe_loop_pairwise w items [] (by simp) (by simp) h

/-! ## Claims C2, C3, C5, C6 -/

/-- Claim C2 counterexample: the role-upgrade replacement in the windowed
dedup moves a later Speaker entry into an earlier accumulator slot, so the
Merge Engine output (sort followed by dedup) violates both the strict
`startMs` ordering (first input) and, for equal `startMs`, the role order
(second input). -/
theorem mergeEngine_ordering_counterexample :
    ¬ List.Pairwise (fun a b : Entry => a.startMs ≤ b.startMs)
        (mergeEngine [⟨0, Role.description, ['a']⟩, ⟨100, Role.description, ['b']⟩,
          ⟨700, Role.speaker, ['a']⟩]) ∧
    ¬ List.Pairwise
        (fun a b : Entry => a.startMs = b.startMs →
          momentOrderValue a.role ≤ momentOrderValue b.role)
        (mergeEngine [⟨0, Role.description, ['a']⟩, ⟨0, Role.description, ['b']⟩,
          ⟨0, Role.speaker, ['a']⟩]) := by
  constructor <;> decide

/-- Claim C2 (amended): after the stable sort the output is ordered by
`startMs` with the role order `Description, On-screen text, Speaker` on
ties; the windowed dedup preserves the time ordering only up to the
750 ms window — in the Merge Engine output, an entry more than 750 ms
earlier than another always precedes it, while entries within the window
(including equal `startMs`) may be reordered by role-upgrade
replacement. -/
theorem mergeEngine_ordering (entries : List Entry) :
    (List.Pairwise (fun a b : Entry => a.startMs ≤ b.startMs)
        (sortEntries entries) ∧
     List.Pairwise
        (fun a b : Entry => a.startMs = b.startMs →
          momentOrderValue a.role ≤ momentOrderValue b.role)
        (sortEntries entries)) ∧
    List.Pairwise (fun a b : Entry => a.startMs ≤ b.startMs + 750)
      (mergeEngine entries) := by
  have hs := sortEntries_pairwise entries
  refine ⟨⟨hs.imp ?_, hs.imp ?_⟩, ?_⟩
  · intro a b h; exact entryLt_false_le h
  · intro a b h he; exact entryLt_false_role h he
  · exact dedupe_window_pairwise (sortEntries entries) 750
      (hs.imp fun h => entryLt_false_le h)

/-- Claim C3 counterexample: on the sorted input
`[(0,Desc,"a"), (100,Desc,"b"), (700,Spk,"a"), (860,Desc,"a")]` the
accumulator after the role-upgrade replacement is `[700, 100]` — not
ordered by `startMs` — and the early exit of the backward scan then skips
the element at 700 ms (same normalized key as the 860 ms candidate, gap
160 ≤ 750), so both survive in the output. -/
theorem dedupe_accumulator_counterexample :
    (dedupeNearDuplicates [⟨0, Role.description, ['a']⟩,
        ⟨100, Role.description, ['b']⟩, ⟨700, Role.speaker, ['a']⟩,
        ⟨860, Role.description, ['a']⟩] 750).map Entry.startMs = [700, 100, 860] ∧
    ¬ List.Pairwise (fun a b : Entry => a.startMs ≤ b.startMs)
        (dedupeNearDuplicates [⟨0, Role.description, ['a']⟩,
          ⟨100, Role.description, ['b']⟩, ⟨700, Role.speaker, ['a']⟩,
          ⟨860, Role.description, ['a']⟩] 750) ∧
    (⟨700, Role.speaker, ['a']⟩ : Entry) ∈
        dedupeNearDuplicates [⟨0, Role.description, ['a']⟩,
          ⟨100, Role.description, ['b']⟩, ⟨700, Role.speaker, ['a']⟩,
          ⟨860, Role.description, ['a']⟩] 750 ∧
    (⟨860, Role.description, ['a']⟩ : Entry) ∈
        dedupeNearDuplicates [⟨0, Role.description, ['a']⟩,
          ⟨100, Role.description, ['b']⟩, ⟨700, Role.speaker, ['a']⟩,
          ⟨860, Role.description, ['a']⟩] 750 ∧
    normalizeForCompare ['a'] = normalizeForCompare ['a'] ∧ 860 - 700 ≤ 750 := by
  refine ⟨by decide, by decide, by decide, by decide, rfl, by decide⟩

/-- Claim C3 (amended): on a `startMs`-sorted input the dedup accumulator
(equal, at every step `k`, to the dedup of the first `k` items) satisfies
only the relaxed invariant that an element never precedes another whose
`startMs` is more than the 750 ms window smaller; full `startMs` ordering
— and hence the soundness of the early exit — fails after a role-upgrade
replacement. -/
theorem dedupe_accumulator_window_ordered (items : List Entry)
    (h : List.Pairwise (fun a b : Entry => a.startMs ≤ b.startMs) items)
    (k : Nat) :
    List.Pairwise (fun a b : Entry => a.startMs ≤ b.startMs + 750)
      (dedupeNearDuplicates (items.take k) 750) :=
  dedupe_window_pairwise (items.take k) 750
    (List.Pairwise.sublist (List.take_sublist k items) h)

theorem dedupe_accumulator_window_ordered_witness :
    List.Pairwise (fun a b : Entry => a.startMs ≤ b.startMs)
      [⟨0, Role.description, ['a']⟩, ⟨700, Role.speaker, ['a']⟩,
       ⟨860, Role.description, ['a']⟩] ∧
    List.Pairwise (fun a b : Entry => a.startMs ≤ b.startMs + 750)
      (dedupeNearDuplicates
        (List.take 2 [⟨0, Role.description, ['a']⟩, ⟨700, Role.speaker, ['a']⟩,
          ⟨860, Role.description, ['a']⟩]) 750) :=
  ⟨by decide,
   dedupe_accumulator_window_ordered
     [⟨0, Role.description, ['a']⟩, ⟨700, Role.speaker, ['a']⟩,
      ⟨860, Role.description, ['a']⟩] (by decide) 2⟩

/-- Claim C5: a Description entry followed by a Speaker entry within the
750 ms window and with equal normalized keys leaves exactly the Speaker
entry in the dedup output, in the slot the Description entry occupied
(the head of the accumulator, which is not re-sorted). -/
theorem dedupe_speaker_preferred (d s : Entry)
    (hd : d.role = Role.description) (hs : s.role = Role.speaker)
    (hds : d.startMs ≤ s.startMs) (hw : s.startMs - d.startMs ≤ 750)
    (hn : normalizeForCompare d.text = normalizeForCompare s.text) :
    dedupeNearDuplicates [d, s] 750 = [s] := by
  have hgap : ¬ s.startMs - d.startMs > 750 := Nat.not_lt.mpr hw
  have hrole : d.role ≠ Role.speaker ∧ s.role = Role.speaker := by
    rw [hd, hs]; exact ⟨by decide, rfl⟩
  simp only [dedupeNearDuplicates, List.foldl_cons, List.foldl_nil, dedupeStep,
    scanRev, if_neg hgap, if_pos hn, if_pos hrole]
  rfl

theorem dedupe_speaker_preferred_witness :
    dedupeNearDuplicates
      [⟨0, Role.description, ['h', 'i']⟩, ⟨700, Role.speaker, ['H', 'I']⟩] 750 =
      [⟨700, Role.speaker, ['H', 'I']⟩] :=
  dedupe_speaker_preferred ⟨0, Role.description, ['h', 'i']⟩
    ⟨700, Role.speaker, ['H', 'I']⟩ rfl rfl (by decide) (by decide) (by decide)

/-- Claim C6: with equal normalized keys and no other in-window collision,
a `startMs` difference of exactly 750 ms is still treated as a duplicate
(the later entry is suppressed, or replaces the earlier one on a role
upgrade), while a difference of 751 ms leaves both entries in the dedup
output. -/
theorem dedupe_window_boundary (e1 e2 : Entry)
    (hn : normalizeForCompare e1.text = normalizeForCompare e2.text) :
    (e2.startMs - e1.startMs = 750 →
      dedupeNearDuplicates [e1, e2] 750 =
        [if e1.role ≠ Role.speaker ∧ e2.role = Role.speaker then e2 else e1]) ∧
    (e2.startMs - e1.startMs = 751 →
      dedupeNearDuplicates [e1, e2] 750 = [e1, e2]) := by
  constructor
  · intro h
    have hgap : ¬ e2.startMs - e1.startMs > 750 := by rw [h]; exact Nat.lt_irrefl _
    simp only [dedupeNearDuplicates, List.foldl_cons, List.foldl_nil, dedupeStep,
      scanRev, if_neg hgap, if_pos hn]
    rfl
  · intro h
    have hgap : e2.startMs - e1.startMs > 750 := by rw [h]; exact Nat.lt_succ_self _
    simp only [dedupeNearDuplicates, List.foldl_cons, List.foldl_nil, dedupeStep,
      scanRev, if_pos hgap]
    rfl

theorem dedupe_window_boundary_witness :
    (dedupeNearDuplicates
        [⟨0, Role.description, ['o', 'k']⟩, ⟨750, Role.speaker, ['O', 'K']⟩] 750 =
      [⟨750, Role.speaker, ['O', 'K']⟩]) ∧
    (dedupeNearDuplicates
        [⟨0, Role.description, ['o', 'k']⟩, ⟨751, Role.speaker, ['O', 'K']⟩] 750 =
      [⟨0, Role.description, ['o', 'k']⟩, ⟨751, Role.speaker, ['O', 'K']⟩]) :=
  And.intro
    (((dedupe_window_boundary ⟨0, Role.description, ['o', 'k']⟩
      ⟨750, Role.speaker, ['O', 'K']⟩ (by decide)).1 (by decide)).trans (by decide))
    ((dedupe_window_boundary ⟨0, Role.description, ['o', 'k']⟩
      ⟨751, Role.speaker, ['O', 'K']⟩ (by decide)).2 (by decide))

/-! ## Character case lemmas (for the identifier canonicalization) -/

theorem charLe_iff_toNat (a b : Char) : a ≤ b ↔ a.toNat ≤ b.toNat := by
  rw [Char.le_def]; exact Iff.rfl


theorem toLower_of_lower (c : Char) (h1 : 'a' ≤ c) (h2 : c ≤ 'z') :
    c.toLower = c := by
  rw [charLe_iff_toNat] at h1 h2
  have e1 : ('a').toNat = 97 := rfl
  have e2 : ('z').toNat = 122 := rfl
  unfold Char.toLower
  rw [if_neg (by omega)]

theorem toLower_of_upper (c : Char) (h1 : 'A' ≤ c) (h2 : c ≤ 'Z') :
    'a' ≤ c.toLower ∧ c.toLower ≤ 'z' := by
  rw [charLe_iff_toNat] at h1 h2
  have e1 : ('A').toNat = 65 := rfl
  have e2 : ('Z').toNat = 90 := rfl
  unfold Char.toLower
  rw [if_pos (by omega)]
  have hv : (c.toNat + 32).isValidChar := Or.inl (by omega)
  have ht : (Char.ofNat (c.toNat + 32)).toNat = c.toNat + 32 := by
    rw [Char.ofNat, dif_pos hv]
    rfl
  constructor <;> rw [charLe_iff_toNat]
  · have e3 : ('a').toNat = 97 := rfl
    omega
  · have e3 : ('z').toNat = 122 := rfl
    omega

theorem toLower_lower_of_alpha (c : Char) (h : isAsciiAlpha c = true) :
    'a' ≤ c.toLower ∧ c.toLower ≤ 'z' := by
  simp only [isAsciiAlpha, Bool.or_eq_true, Bool.and_eq_true, decide_eq_true_eq] at h
  rcases h with ⟨h1, h2⟩ | ⟨h1, h2⟩
  · rw [toLower_of_lower c h1 h2]; exact ⟨h1, h2⟩
  · exact toLower_of_upper c h1 h2

theorem ytpAt_some_decomp (l out : List Char) (h : ytpAt l = some out) :
    ∃ c1 c2 c3 c4 c5 c6 d1 d2 d3 suf,
      l = c1 :: c2 :: c3 :: c4 :: c5 :: c6 :: d1 :: d2 :: d3 :: suf ∧
      ytpCond c1 c2 c3 c4 c5 c6 d1 d2 d3 ∧ out = ytpCanon d1 d2 d3 suf := by
  rcases l with _ | ⟨c1, _ | ⟨c2, _ | ⟨c3, _ | ⟨c4, _ | ⟨c5, _ | ⟨c6, _ | ⟨d1,
    _ | ⟨d2, _ | ⟨d3, rest⟩⟩⟩⟩⟩⟩⟩⟩⟩ <;> simp [ytpAt] at h
  exact ⟨c1, c2, c3, c4, c5, c6, d1, d2, d3, rest, rfl, h.1, h.2.symm⟩

theorem ytpAt_isSome_of_occ (c1 c2 c3 c4 c5 c6 d1 d2 d3 : Char)
    (suf : List Char) (hc : ytpCond c1 c2 c3 c4 c5 c6 d1 d2 d3) :
    (ytpAt (c1 :: c2 :: c3 :: c4 :: c5 :: c6 :: d1 :: d2 :: d3 :: suf)).isSome =
      true := by
  have hdef : ytpAt (c1 :: c2 :: c3 :: c4 :: c5 :: c6 :: d1 :: d2 :: d3 :: suf) =
      if ytpCond c1 c2 c3 c4 c5 c6 d1 d2 d3 then some (ytpCanon d1 d2 d3 suf)
      else none := rfl
  rw [hdef, if_pos hc]
  rfl

theorem extract_append_isSome (pre l : List Char)
    (h : (ytpAt l).isSome = true) :
    (extractYtpId (pre ++ l)).isSome = true := by
  induction pre with
  | nil =>
    rcases l with _ | ⟨c, rest⟩
    · simp [ytpAt] at h
    · rw [List.nil_append, extractYtpId]
      cases hy : ytpAt (c :: rest) with
      | some r => rfl
      | none => rw [hy] at h; simp at h
  | cons p pre ih =>
    rw [List.cons_append, extractYtpId]
    cases hy : ytpAt (p :: (pre ++ l)) with
    | some r => rfl
    | none => exact ih

/-- Claim C10: `extractYtpId` succeeds exactly on the strings containing a
case-insensitive occurrence of `YTP26-` followed by three digits (with a
greedy optional trailing letter), and every identifier it returns is
canonical: the literal uppercase prefix `YTP26-`, the three matched
digits, and — when the optional group matched a letter — that letter in
lowercase.  Strings with no occurrence give `none` (JS `null`). -/
theorem extractYtpId_spec :
    (∀ l : List Char,
      (extractYtpId l).isSome = true ↔
        ∃ pre c1 c2 c3 c4 c5 c6 d1 d2 d3 suf,
          l = pre ++ c1 :: c2 :: c3 :: c4 :: c5 :: c6 :: d1 :: d2 :: d3 :: suf ∧
          ytpCond c1 c2 c3 c4 c5 c6 d1 d2 d3) ∧
    (∀ l out, extractYtpId l = some out →
      ∃ d1 d2 d3 tail,
        out = 'Y' :: 'T' :: 'P' :: '2' :: '6' :: '-' :: d1 :: d2 :: d3 :: tail ∧
        d1.isDigit = true ∧ d2.isDigit = true ∧ d3.isDigit = true ∧
        (tail = [] ∨ ∃ c, tail = [c] ∧ 'a' ≤ c ∧ c ≤ 'z')) := by
  constructor
  · intro l
    constructor
    · induction l with
      | nil => intro h; rw [extractYtpId] at h; simp at h
      | cons c rest ih =>
        intro h
        rw [extractYtpId] at h
        cases hy : ytpAt (c :: rest) with
        | some r =>
          obtain ⟨c1, c2, c3, c4, c5, c6, d1, d2, d3, suf, he, hc, -⟩ :=
            ytpAt_some_decomp _ _ hy
          exact ⟨[], c1, c2, c3, c4, c5, c6, d1, d2, d3, suf,
            by rw [← he]; rfl, hc⟩
        | none =>
          rw [hy] at h
          obtain ⟨pre, c1, c2, c3, c4, c5, c6, d1, d2, d3, suf, he, hc⟩ := ih h
          exact ⟨c :: pre, c1, c2, c3, c4, c5, c6, d1, d2, d3, suf,
            by rw [List.cons_append, ← he], hc⟩
    · rintro ⟨pre, c1, c2, c3, c4, c5, c6, d1, d2, d3, suf, he, hc⟩
      rw [he]
      exact extract_append_isSome pre _
        (ytpAt_isSome_of_occ c1 c2 c3 c4 c5 c6 d1 d2 d3 suf hc)
  · intro l
    induction l with
    | nil => intro out h; rw [extractYtpId] at h; cases h
    | cons c rest ih =>
      intro out h
      rw [extractYtpId] at h
      cases hy : ytpAt (c :: rest) with
      | some r =>
        rw [hy] at h
        obtain ⟨c1, c2, c3, c4, c5, c6, d1, d2, d3, suf, -, hc, hout⟩ :=
          ytpAt_some_decomp _ _ hy
        have hro : r = out := Option.some.inj h
        subst hro
        refine ⟨d1, d2, d3, ytpTail suf, ?_, hc.2.2.2.2.2.2.1,
          hc.2.2.2.2.2.2.2.1, hc.2.2.2.2.2.2.2.2, ?_⟩
        · exact hout.trans rfl
        · rcases suf with _ | ⟨c0, suf0⟩
          · exact Or.inl rfl
          · by_cases ha : isAsciiAlpha c0 = true
            · refine Or.inr ⟨c0.toLower, ?_, (toLower_lower_of_alpha c0 ha).1,
                (toLower_lower_of_alpha c0 ha).2⟩
              simp [ytpTail, ha]
            · left
              simp [ytpTail, ha]
      | none =>
        rw [hy] at h
        exact ih out h

theorem extractYtpId_spec_witness :
    (extractYtpId ("clip-YTP26-042a-final.srt").toList).isSome = true ∧
    (∃ d1 d2 d3 tail,
      ("YTP26-042a").toList =
        'Y' :: 'T' :: 'P' :: '2' :: '6' :: '-' :: d1 :: d2 :: d3 :: tail ∧
      d1.isDigit = true ∧ d2.isDigit = true ∧ d3.isDigit = true ∧
      (tail = [] ∨ ∃ c, tail = [c] ∧ 'a' ≤ c ∧ c ≤ 'z')) :=
  ⟨(extractYtpId_spec.1 _).mpr
    ⟨("clip-").toList, 'Y', 'T', 'P', '2', '6', '-', '0', '4', '2',
      ("a-final.srt").toList, by decide, by decide⟩,
   extractYtpId_spec.2 ("ytp26-042A").toList ("YTP26-042a").toList (by decide)⟩

/-- Claim C8 counterexample: for a two-file batch the zip handed to the
download link is named `Narrava_Combined_2_files.zip`, not the
`Combined_2_files.zip` stated by the specification. -/
theorem handleOutputs_name_counterexample :
    handleOutputs [⟨"a.txt", "A"⟩, ⟨"b.txt", "B"⟩] =
      DownloadResult.zipped "Narrava_Combined_2_files.zip"
        [⟨"a.txt", "A"⟩, ⟨"b.txt", "B"⟩] ∧
    ¬ handleOutputs [⟨"a.txt", "A"⟩, ⟨"b.txt", "B"⟩] =
      DownloadResult.zipped "Combined_2_files.zip"
        [⟨"a.txt", "A"⟩, ⟨"b.txt", "B"⟩] := by
  constructor
  · rfl
  · decide

/-- Claim C8 (amended): whenever a batch produces more than one
OutputFile, the archive builder is invoked with all of them and the
resulting archive is offered under the name
`Narrava_Combined_<count>_files.zip`, where `<count>` is the number of
OutputFiles. -/
theorem handleOutputs_zip_name (outputs : List OutputFile)
    (h : 1 < outputs.length) :
    handleOutputs outputs =
      DownloadResult.zipped
        ("Narrava_Combined_" ++ toString outputs.length ++ "_files.zip")
        outputs := by
  match outputs with
  | [] => simp at h
  | [o] => simp at h
  | a :: b :: rest => rfl

theorem handleOutputs_zip_name_witness :
    1 < ([⟨"a.txt", "A"⟩, ⟨"b.txt", "B"⟩] : List OutputFile).length ∧
    handleOutputs [⟨"a.txt", "A"⟩, ⟨"b.txt", "B"⟩] =
      DownloadResult.zipped
        ("Narrava_Combined_" ++
          toString ([⟨"a.txt", "A"⟩, ⟨"b.txt", "B"⟩] : List OutputFile).length ++
          "_files.zip")
        [⟨"a.txt", "A"⟩, ⟨"b.txt", "B"⟩] :=
  ⟨by decide, handleOutputs_zip_name [⟨"a.txt", "A"⟩, ⟨"b.txt", "B"⟩] (by decide)⟩

/-! ## Claims C4 and C9 -/

/-- Claim C4 counterexample: on the spec's end-to-end scenario the code
does not produce the spec's example output (On-screen text first): the
1000 ms Speaker entry sorts before the 1500 ms On-screen-text entry. -/
theorem combineTranscripts_example_counterexample :
    ¬ combineTranscripts
        ("1\n00:00:01,000 --> 00:00:02,000\nHi there\n").toList
        ("1\n00:00:01,500 --> 00:00:02,500\nOn-screen text: WELCOME\n").toList =
      ("On-screen text: WELCOME\n\nSpeaker: Hi there").toList := by
  decide

/-- Claim C4 (amended): for a spoken track with one cue at 00:00:01,000
"Hi there" and a descriptive track with one cue at 00:00:01,500
"On-screen text: WELCOME", `combineTranscripts` produces the line
"Speaker: Hi there", one blank line, then "On-screen text: WELCOME". -/
theorem combineTranscripts_example :
    combineTranscripts
        ("1\n00:00:01,000 --> 00:00:02,000\nHi there\n").toList
        ("1\n00:00:01,500 --> 00:00:02,500\nOn-screen text: WELCOME\n").toList =
      ("Speaker: Hi there\n\nOn-screen text: WELCOME").toList := by
  decide

theorem parseLoopF_nil (f : Nat) :
    ∀ lls : List (List Char), (∀ l ∈ lls, execTimecode l = none) →
      parseLoopF f lls = [] := by
  induction f with
  | zero => intro lls _; rfl
  | succ f ih =>
    intro lls h
    match lls with
    | [] => rfl
    | l0 :: rest =>
      rw [parseLoopF]
      cases hsplit : (if isIndexLine l0 then rest else l0 :: rest) with
      | nil => rfl
      | cons l1 rest1 =>
        have hmem : l1 :: rest1 = rest ∨ l1 :: rest1 = l0 :: rest := by
          by_cases hi : isIndexLine l0 = true
          · rw [if_pos hi] at hsplit; exact Or.inl hsplit.symm
          · rw [if_neg hi] at hsplit; exact Or.inr hsplit.symm
        have hl1 : l1 ∈ l0 :: rest := by
          rcases hmem with he | he
          · exact List.mem_cons_of_mem _ (he ▸ List.mem_cons_self l1 rest1)
          · exact he ▸ List.mem_cons_self l1 rest1
        have hrest1 : ∀ l ∈ rest1, execTimecode l = none := by
          intro l hl
          rcases hmem with he | he
          · exact h l (List.mem_cons_of_mem _
              (he ▸ List.mem_cons_of_mem _ hl))
          · exact h l (he ▸ List.mem_cons_of_mem _ hl)
        show (match execTimecode l1 with
          | none => parseLoopF f rest1
          | some startMs =>
            let textLines := List.takeWhile (fun l => !(trimJS l).isEmpty) rest1
            let rest2 := List.dropWhile (fun l => !(trimJS l).isEmpty) rest1
            let rest3 := List.dropWhile (fun l => (trimJS l).isEmpty) rest2
            let text := cleanSrtText (['\n'].intercalate textLines)
            (if (trimJS text).isEmpty = true then []
             else [{ startMs := startMs, text := text }]) ++ parseLoopF f rest3) =
          []
        rw [h l1 hl1]
        exact ih rest1 hrest1

/-- Claim C9: `parseSrtToBlocks` is total by construction (it is a Lean
function into `List Block`); the empty input and any input none of whose
lines contains a timecode match — malformed cues and stray lines — yield
the empty block sequence rather than an error. -/
theorem parseSrtToBlocks_error_policy :
    parseSrtToBlocks [] = [] ∧
    ∀ s : List Char, (∀ l ∈ srtLines s, execTimecode l = none) →
      parseSrtToBlocks s = [] := by
  constructor
  · rfl
  · intro s h
    exact parseLoopF_nil _ _ h

theorem parseSrtToBlocks_error_policy_witness :
    (∀ l ∈ srtLines ("hello, world\n12:34 is not a timecode\n\n").toList,
      execTimecode l = none) ∧
    parseSrtToBlocks ("hello, world\n12:34 is not a timecode\n\n").toList = [] :=
  ⟨by decide, parseSrtToBlocks_error_policy.2 _ (by decide)⟩

/-! ## Claim C7: idempotence of the Text Normalizer

Basic closure and membership lemmas. -/

theorem head?_dropWhile_false (p : Char → Bool) (l : List Char) (c : Char)
    (h : (l.dropWhile p).head? = some c) : p c = false := by
  induction l with
  | nil => simp [List.dropWhile] at h
  | cons a rest ih =>
    rw [List.dropWhile] at h
    by_cases ha : p a
    · rw [ha] at h
      exact ih (by simpa using h)
    · simp only [Bool.not_eq_true] at ha
      rw [ha] at h
      simp only [List.head?_cons, Option.some.injEq] at h
      rw [← h]
      exact ha

theorem noTag_cons (c : Char) (rest : List Char) :
    noTag (c :: rest) =
      if c = '<' then
        if rest.head? = some '>' then noTag rest else !decide ('>' ∈ rest)
      else noTag rest := rfl

theorem noBrace_cons (c : Char) (rest : List Char) :
    noBrace (c :: rest) =
      if c = lbrace then !decide (rbrace ∈ rest) else noBrace rest := rfl

theorem noTag_of_not_mem (l : List Char) (h : ¬ '>' ∈ l) : noTag l = true := by
  induction l with
  | nil => rfl
  | cons a rest ih =>
    rw [noTag_cons]
    by_cases hac : a = '<'
    · rw [if_pos hac]
      have hng : ¬ '>' ∈ rest := fun hm => h (List.mem_cons_of_mem _ hm)
      have hh2 : rest.head? ≠ some '>' := by
        intro he
        cases rest with
        | nil => simp at he
        | cons b br =>
          simp only [List.head?_cons, Option.some.injEq] at he
          exact hng (he ▸ List.mem_cons_self _ _)
      rw [if_neg hh2]
      simpa using hng
    · rw [if_neg hac]
      exact ih (fun hm => h (List.mem_cons_of_mem _ hm))

theorem noBrace_of_not_mem (l : List Char) (h : ¬ rbrace ∈ l) :
    noBrace l = true := by
  induction l with
  | nil => rfl
  | cons a rest ih =>
    rw [noBrace_cons]
    by_cases hac : a = lbrace
    · rw [if_pos hac]
      simpa using fun hm => h (List.mem_cons_of_mem _ hm)
    · rw [if_neg hac]
      exact ih (fun hm => h (List.mem_cons_of_mem _ hm))

theorem noTag_tail (c : Char) (l : List Char) (h : noTag (c :: l) = true) :
    noTag l = true := by
  rw [noTag_cons] at h
  by_cases hc : c = '<'
  · rw [if_pos hc] at h
    by_cases hh : l.head? = some '>'
    · rwa [if_pos hh] at h
    · rw [if_neg hh] at h
      simp only [Bool.not_eq_true', decide_eq_false_iff_not] at h
      exact noTag_of_not_mem l h
  · rwa [if_neg hc] at h

theorem noBrace_tail (c : Char) (l : List Char) (h : noBrace (c :: l) = true) :
    noBrace l = true := by
  rw [noBrace_cons] at h
  by_cases hc : c = lbrace
  · rw [if_pos hc] at h
    simp only [Bool.not_eq_true', decide_eq_false_iff_not] at h
    exact noBrace_of_not_mem l h
  · rwa [if_neg hc] at h

theorem noTag_suffix (pre l : List Char) (h : noTag (pre ++ l) = true) :
    noTag l = true := by
  induction pre with
  | nil => exact h
  | cons a p ih => exact ih (noTag_tail a _ h)

theorem noBrace_suffix (pre l : List Char) (h : noBrace (pre ++ l) = true) :
    noBrace l = true := by
  induction pre with
  | nil => exact h
  | cons a p ih => exact ih (noBrace_tail a _ h)

theorem noTrailWs_pair (c1 c2 : Char) (rest : List Char) :
    noTrailWs (c1 :: c2 :: rest) =
      (!(isJsWs c1 && isLineTerm c2) && noTrailWs (c2 :: rest)) := rfl

theorem noTrailWs_tail (c : Char) (l : List Char)
    (h : noTrailWs (c :: l) = true) : noTrailWs l = true := by
  match l with
  | [] => rfl
  | c2 :: rest =>
    rw [noTrailWs_pair] at h
    exact Bool.and_elim_right h

theorem noTrailWs_cons_of_pair (c : Char) (l : List Char)
    (hl : noTrailWs l = true)
    (hc : isJsWs c = true → ∃ h2, l.head? = some h2 ∧ isLineTerm h2 = false) :
    noTrailWs (c :: l) = true := by
  match l with
  | [] =>
    show (!isJsWs c) = true
    by_cases hw : isJsWs c = true
    · obtain ⟨h2, he, -⟩ := hc hw
      simp at he
    · simpa using hw
  | c2 :: rest =>
    rw [noTrailWs_pair]
    have hpair : (!(isJsWs c && isLineTerm c2)) = true := by
      by_cases hw : isJsWs c = true
      · obtain ⟨h2, he, hne⟩ := hc hw
        simp only [List.head?_cons, Option.some.injEq] at he
        subst he
        simp [hw, hne]
      · simp [hw]
    rw [hpair, hl]
    rfl

theorem noTrailWs_getLast (l : List Char) (h : noTrailWs l = true)
    (hne : l ≠ []) : isJsWs (l.getLast hne) = false := by
  induction l with
  | nil => exact absurd rfl hne
  | cons c rest ih =>
    match rest with
    | [] =>
      have h2 : (!isJsWs c) = true := h
      simpa using h2
    | c2 :: rr =>
      rw [List.getLast_cons (by simp)]
      exact ih (noTrailWs_tail c _ h) (by simp)

/-! SubstEdit: basic properties and the stage relations. -/

theorem substEdit_refl (P : Char → Bool) (l : List Char) : SubstEdit P l l := by
  induction l with
  | nil => exact SubstEdit.nil
  | cons c rest ih => exact SubstEdit.keep c ih

theorem substEdit_mem (P : Char → Bool) {l l2 : List Char}
    (h : SubstEdit P l l2) : ∀ x ∈ l2, x ∈ l ∨ P x = true := by
  induction h with
  | nil => intro x hx; cases hx
  | keep c h ih =>
    intro x hx
    rcases List.mem_cons.mp hx with rfl | hx
    · exact Or.inl (List.mem_cons_self _ _)
    · rcases ih x hx with hm | hp
      · exact Or.inl (List.mem_cons_of_mem _ hm)
      · exact Or.inr hp
  | del c hP h ih =>
    intro x hx
    rcases ih x hx with hm | hp
    · exact Or.inl (List.mem_cons_of_mem _ hm)
    · exact Or.inr hp
  | subst c o hPc hPo ho h ih =>
    intro x hx
    rcases List.mem_cons.mp hx with rfl | hx
    · exact Or.inr hPo
    · rcases ih x hx with hm | hp
      · exact Or.inl (List.mem_cons_of_mem _ hm)
      · exact Or.inr hp

theorem substEdit_nil_right (P : Char → Bool) {l : List Char}
    (h : SubstEdit P l []) : ∀ x ∈ l, P x = true := by
  generalize he : ([] : List Char) = e at h
  induction h with
  | nil => intro x hx; cases hx
  | keep c h ih => cases he
  | del c hP h ih =>
    intro x hx
    rcases List.mem_cons.mp hx with rfl | hx
    · exact hP
    · exact ih he x hx
  | subst c o hPc hPo ho h ih => cases he

theorem substEdit_del_all (P : Char → Bool) (l : List Char)
    (h : ∀ x ∈ l, P x = true) : SubstEdit P l [] := by
  induction l with
  | nil => exact SubstEdit.nil
  | cons c rest ih =>
    exact SubstEdit.del c (h c (List.mem_cons_self _ _))
      (ih fun x hx => h x (List.mem_cons_of_mem _ hx))

theorem substEdit_append_left_del (P : Char → Bool) (p l l2 : List Char)
    (hp : ∀ c ∈ p, P c = true) (h : SubstEdit P l l2) :
    SubstEdit P (p ++ l) l2 := by
  induction p with
  | nil => exact h
  | cons c rest ih =>
    exact SubstEdit.del c (hp c (List.mem_cons_self _ _))
      (ih fun x hx => hp x (List.mem_cons_of_mem _ hx))

theorem substEdit_append_right_del (P : Char → Bool) (l sfx : List Char)
    (hs : ∀ c ∈ sfx, P c = true) : SubstEdit P (l ++ sfx) l := by
  induction l with
  | nil => exact substEdit_del_all P sfx hs
  | cons c rest ih => exact SubstEdit.keep c ih

theorem substEdit_filter (l : List Char) :
    SubstEdit (fun c => c = zwspChar) l (stripZwsp l) := by
  induction l with
  | nil => exact SubstEdit.nil
  | cons c rest ih =>
    rw [stripZwsp, List.filter]
    by_cases hc : c = zwspChar
    · rw [show (!(c = zwspChar : Bool)) = false by simp [hc]]
      exact SubstEdit.del c (by simp [hc]) ih
    · rw [show (!(c = zwspChar : Bool)) = true by simp [hc]]
      exact SubstEdit.keep c ih

theorem bestMAux_some (l : List Char) (k m : Nat)
    (h : bestMAux l k = some m) :
    1 ≤ m ∧ m ≤ k ∧ lineEndAt l m = true := by
  induction k with
  | zero => cases h
  | succ k ih =>
    rw [bestMAux] at h
    by_cases hle : lineEndAt l (k + 1) = true
    · rw [if_pos hle] at h
      obtain rfl := Option.some.inj h
      exact ⟨Nat.succ_le_succ (Nat.zero_le _), Nat.le_refl _, hle⟩
    · rw [if_neg hle] at h
      obtain ⟨h1, h2, h3⟩ := ih h
      exact ⟨h1, Nat.le_succ_of_le h2, h3⟩

theorem bestM_some (l : List Char) (m : Nat) (h : bestM l = some m) :
    1 ≤ m ∧ m ≤ (l.takeWhile isJsWs).length ∧ lineEndAt l m = true :=
  bestMAux_some l _ m h

theorem takeWhile_all_ws (l : List Char) :
    ∀ c ∈ l.takeWhile isJsWs, isJsWs c = true := by
  intro c hc
  exact List.mem_takeWhile_imp hc

theorem take_of_le_takeWhile (l : List Char) (m : Nat)
    (h : m ≤ (l.takeWhile isJsWs).length) :
    ∀ c ∈ l.take m, isJsWs c = true := by
  intro c hc
  have h1 : l.take m = (l.takeWhile isJsWs).take m := by
    conv_lhs => rw [← List.takeWhile_append_dropWhile isJsWs l]
    rw [List.take_append_of_le_length h]
  rw [h1] at hc
  exact takeWhile_all_ws l c (List.mem_of_mem_take hc)

theorem rstripF_cons (f : Nat) (c : Char) (rest : List Char) :
    rstripF (f + 1) (c :: rest) =
      if isJsWs c then
        match bestM (c :: rest) with
        | some m => rstripF f ((c :: rest).drop m)
        | none => c :: rstripF f rest
      else c :: rstripF f rest := rfl

theorem substEdit_rstripF (f : Nat) :
    ∀ l : List Char, l.length ≤ f → SubstEdit isJsWs l (rstripF f l) := by
  induction f using Nat.strong_induction_on with
  | _ f ih =>
    intro l hl
    match f, l with
    | 0, [] => exact SubstEdit.nil
    | 0, c :: rest => simp at hl
    | f + 1, [] => exact SubstEdit.nil
    | f + 1, c :: rest =>
      rw [rstripF_cons]
      by_cases hw : isJsWs c = true
      · rw [if_pos hw]
        cases hm : bestM (c :: rest) with
        | some m =>
          obtain ⟨h1, h2, -⟩ := bestM_some _ _ hm
          have hdrop : SubstEdit isJsWs ((c :: rest).drop m)
              (rstripF f ((c :: rest).drop m)) := by
            apply ih f (Nat.lt_succ_self f)
            rw [List.length_drop]
            simp only [List.length_cons] at hl ⊢
            omega
          have hfull := substEdit_append_left_del isJsWs ((c :: rest).take m)
            ((c :: rest).drop m) (rstripF f ((c :: rest).drop m))
            (take_of_le_takeWhile (c :: rest) m h2) hdrop
          rw [List.take_append_drop] at hfull
          exact hfull
        | none =>
          exact SubstEdit.keep c (ih f (Nat.lt_succ_self f) rest
            (by simp only [List.length_cons] at hl; omega))
      · rw [if_neg hw]
        exact SubstEdit.keep c (ih f (Nat.lt_succ_self f) rest
          (by simp only [List.length_cons] at hl; omega))

theorem collapseRunsF_cons (p : Char → Bool) (o : Char) (f : Nat) (c : Char)
    (rest : List Char) :
    collapseRunsF p o (f + 1) (c :: rest) =
      if p c then o :: collapseRunsF p o f (rest.dropWhile p)
      else c :: collapseRunsF p o f rest := rfl

theorem substEdit_collapseRunsF (P p : Char → Bool)
    (hp : ∀ c, p c = true → P c = true) (hP : P ' ' = true) (f : Nat) :
    ∀ l : List Char, l.length ≤ f →
      SubstEdit P l (collapseRunsF p ' ' f l) := by
  induction f using Nat.strong_induction_on with
  | _ f ih =>
    intro l hl
    match f, l with
    | 0, [] => exact SubstEdit.nil
    | 0, c :: rest => simp at hl
    | f + 1, [] => exact SubstEdit.nil
    | f + 1, c :: rest =>
      rw [collapseRunsF_cons]
      by_cases hc : p c = true
      · rw [if_pos hc]
        have hdw : SubstEdit P (rest.dropWhile p)
            (collapseRunsF p ' ' f (rest.dropWhile p)) := by
          apply ih f (Nat.lt_succ_self f)
          have := List.Sublist.length_le (List.dropWhile_sublist (l := rest) p)
          simp only [List.length_cons] at hl
          omega
        have hrest : SubstEdit P rest
            (collapseRunsF p ' ' f (rest.dropWhile p)) := by
          have hfull := substEdit_append_left_del P (rest.takeWhile p)
            (rest.dropWhile p) (collapseRunsF p ' ' f (rest.dropWhile p))
            (fun x hx => hp x (List.mem_takeWhile_imp hx)) hdw
          rwa [List.takeWhile_append_dropWhile] at hfull
        exact SubstEdit.subst c ' ' (hp c hc) hP (Or.inl rfl) hrest
      · rw [if_neg hc]
        exact SubstEdit.keep c (ih f (Nat.lt_succ_self f) rest
          (by simp only [List.length_cons] at hl; omega))

theorem dropTrailWs_decomp (l : List Char) :
    ∃ sfx, l = dropTrailWs l ++ sfx ∧ ∀ c ∈ sfx, isJsWs c = true := by
  refine ⟨(l.reverse.takeWhile isJsWs).reverse, ?_, ?_⟩
  · rw [dropTrailWs]
    rw [← List.reverse_append]
    rw [List.takeWhile_append_dropWhile]
    rw [List.reverse_reverse]
  · intro c hc
    rw [List.mem_reverse] at hc
    exact List.mem_takeWhile_imp hc

theorem substEdit_trimJS (l : List Char) : SubstEdit isJsWs l (trimJS l) := by
  rw [trimJS]
  obtain ⟨sfx, he, hs⟩ := dropTrailWs_decomp (l.dropWhile isJsWs)
  have h1 : SubstEdit isJsWs (l.dropWhile isJsWs)
      (dropTrailWs (l.dropWhile isJsWs)) := by
    conv_lhs => rw [he]
    exact substEdit_append_right_del isJsWs _ sfx hs
  have hfull := substEdit_append_left_del isJsWs (l.takeWhile isJsWs)
    (l.dropWhile isJsWs) (dropTrailWs (l.dropWhile isJsWs))
    (fun x hx => List.mem_takeWhile_imp hx) h1
  rwa [List.takeWhile_append_dropWhile] at hfull

/-! Deletion-only stages are sublists, so character-absence facts are
preserved through them. -/

theorem stripTagsF_sublist (f : Nat) :
    ∀ l : List Char, (stripTagsF f l).Sublist l := by
  induction f using Nat.strong_induction_on with
  | _ f ih =>
    intro l
    match f, l with
    | 0, l => exact List.nil_sublist l
    | f + 1, [] => exact List.Sublist.refl []
    | f + 1, c :: rest =>
      rw [stripTagsF]
      by_cases hc : c = '<'
      · rw [if_pos hc]
        cases hdw : rest.dropWhile (fun x => !(x = '>')) with
        | nil => exact (ih f (Nat.lt_succ_self f) rest).cons₂ c
        | cons g suf =>
          show (if (rest.takeWhile (fun x => !(x = '>'))).isEmpty = true
              then c :: stripTagsF f rest
              else stripTagsF f suf).Sublist (c :: rest)
          by_cases hemp : (rest.takeWhile (fun x => !(x = '>'))).isEmpty = true
          · rw [if_pos hemp]
            exact (ih f (Nat.lt_succ_self f) rest).cons₂ c
          · rw [if_neg hemp]
            have hsuf : suf.Sublist rest := by
              have h1 : (g :: suf).Sublist rest := hdw ▸ List.dropWhile_sublist _
              exact (List.sublist_cons_self g suf).trans h1
            exact ((ih f (Nat.lt_succ_self f) suf).trans hsuf).cons c
      · rw [if_neg hc]
        exact (ih f (Nat.lt_succ_self f) rest).cons₂ c

theorem rstripF_sublist (f : Nat) :
    ∀ l : List Char, (rstripF f l).Sublist l := by
  induction f using Nat.strong_induction_on with
  | _ f ih =>
    intro l
    match f, l with
    | 0, l => exact List.nil_sublist l
    | f + 1, [] => exact List.Sublist.refl []
    | f + 1, c :: rest =>
      rw [rstripF_cons]
      by_cases hw : isJsWs c = true
      · rw [if_pos hw]
        cases hm : bestM (c :: rest) with
        | some m =>
          exact (ih f (Nat.lt_succ_self f) _).trans (List.drop_sublist m _)
        | none => exact (ih f (Nat.lt_succ_self f) rest).cons₂ c
      · rw [if_neg hw]
        exact (ih f (Nat.lt_succ_self f) rest).cons₂ c

theorem trimJS_sublist (l : List Char) : (trimJS l).Sublist l := by
  rw [trimJS, dropTrailWs]
  have h1 : ((l.dropWhile isJsWs).reverse.dropWhile isJsWs).Sublist
      (l.dropWhile isJsWs).reverse := List.dropWhile_sublist _
  have h2 := h1.reverse
  rw [List.reverse_reverse] at h2
  exact h2.trans (List.dropWhile_sublist _)

theorem collapseNl_sublist (f : Nat) :
    ∀ l : List Char, (collapseRunsF (fun c => c = '\n') '\n' f l).Sublist l := by
  induction f using Nat.strong_induction_on with
  | _ f ih =>
    intro l
    match f, l with
    | 0, l => exact List.nil_sublist l
    | f + 1, [] => exact List.Sublist.refl []
    | f + 1, c :: rest =>
      rw [collapseRunsF_cons]
      by_cases hc : (c = '\n' : Bool) = true
      · rw [if_pos hc]
        have hcn : c = '\n' := by simpa using hc
        rw [hcn]
        exact ((ih f (Nat.lt_succ_self f) _).trans
          (List.dropWhile_sublist _)).cons₂ '\n'
      · rw [if_neg hc]
        exact (ih f (Nat.lt_succ_self f) rest).cons₂ c

/-! Preservation of the fixed-point predicates along SubstEdits. -/

theorem substEdit_cons_inv (P : Char → Bool) (c : Char) {l l2 : List Char}
    (h : SubstEdit P (c :: l) l2) (hc : P c = false) :
    ∃ l2t, l2 = c :: l2t ∧ SubstEdit P l l2t := by
  cases h with
  | keep _ h => exact ⟨_, rfl, h⟩
  | del _ hP h => rw [hP] at hc; cases hc
  | subst _ o hP hPo ho h => rw [hP] at hc; cases hc

theorem notMem_substEdit (P : Char → Bool) {l l2 : List Char}
    (h : SubstEdit P l l2) (x : Char) (hx : P x = false) (hm : ¬ x ∈ l) :
    ¬ x ∈ l2 := by
  intro hm2
  rcases substEdit_mem P h x hm2 with h1 | h1
  · exact hm h1
  · rw [h1] at hx; cases hx

theorem noTag_substEdit (P : Char → Bool)
    (hP : ∀ c, P c = true → ¬ (c = '<' ∨ c = '>')) {l l2 : List Char}
    (h : SubstEdit P l l2) : noTag l = true → noTag l2 = true := by
  have hPgt : P '>' = false := by
    by_cases hq : P '>' = true
    · exact absurd (Or.inr rfl) (hP '>' hq)
    · simpa using hq
  induction h with
  | nil => intro h0; exact h0
  | keep c h ih =>
    rename_i lt l2t
    intro hnt
    rw [noTag_cons] at hnt
    rw [noTag_cons]
    by_cases hc : c = '<'
    · rw [if_pos hc] at hnt ⊢
      by_cases hh : lt.head? = some '>'
      · rw [if_pos hh] at hnt
        cases lt with
        | nil => simp at hh
        | cons y yt =>
          simp only [List.head?_cons, Option.some.injEq] at hh
          subst hh
          obtain ⟨l2s, rfl, -⟩ := substEdit_cons_inv P '>' h hPgt
          rw [if_pos (by simp)]
          exact ih hnt
      · rw [if_neg hh] at hnt
        simp only [Bool.not_eq_true', decide_eq_false_iff_not] at hnt
        have hnm : ¬ '>' ∈ l2t := notMem_substEdit P h '>' hPgt hnt
        have hh2 : l2t.head? ≠ some '>' := by
          intro he
          cases l2t with
          | nil => simp at he
          | cons b br =>
            simp only [List.head?_cons, Option.some.injEq] at he
            exact hnm (he ▸ List.mem_cons_self _ _)
        rw [if_neg hh2]
        simpa using hnm
    · rw [if_neg hc] at hnt ⊢
      exact ih hnt
  | del c hPc h ih =>
    intro hnt
    have hc : ¬ c = '<' := fun he => hP c hPc (Or.inl he)
    rw [noTag_cons, if_neg hc] at hnt
    exact ih hnt
  | subst c o hPc hPo ho h ih =>
    intro hnt
    have hc : ¬ c = '<' := fun he => hP c hPc (Or.inl he)
    have hoc : ¬ o = '<' := fun he => hP o hPo (Or.inl he)
    rw [noTag_cons, if_neg hc] at hnt
    rw [noTag_cons, if_neg hoc]
    exact ih hnt

theorem noBrace_substEdit (P : Char → Bool)
    (hP : ∀ c, P c = true → ¬ (c = lbrace ∨ c = rbrace)) {l l2 : List Char}
    (h : SubstEdit P l l2) : noBrace l = true → noBrace l2 = true := by
  have hPrb : P rbrace = false := by
    by_cases hq : P rbrace = true
    · exact absurd (Or.inr rfl) (hP rbrace hq)
    · simpa using hq
  induction h with
  | nil => intro h0; exact h0
  | keep c h ih =>
    rename_i lt l2t
    intro hnt
    rw [noBrace_cons] at hnt
    rw [noBrace_cons]
    by_cases hc : c = lbrace
    · rw [if_pos hc] at hnt ⊢
      simp only [Bool.not_eq_true', decide_eq_false_iff_not] at hnt
      have hnm : ¬ rbrace ∈ l2t := notMem_substEdit P h rbrace hPrb hnt
      simpa using hnm
    · rw [if_neg hc] at hnt ⊢
      exact ih hnt
  | del c hPc h ih =>
    intro hnt
    have hc : ¬ c = lbrace := fun he => hP c hPc (Or.inl he)
    rw [noBrace_cons, if_neg hc] at hnt
    exact ih hnt
  | subst c o hPc hPo ho h ih =>
    intro hnt
    have hc : ¬ c = lbrace := fun he => hP c hPc (Or.inl he)
    have hoc : ¬ o = lbrace := fun he => hP o hPo (Or.inl he)
    rw [noBrace_cons, if_neg hc] at hnt
    rw [noBrace_cons, if_neg hoc]
    exact ih hnt

theorem noTrailWs_head_pair (c : Char) (l : List Char)
    (h : noTrailWs (c :: l) = true) (hw : isJsWs c = true) :
    ∀ y, l.head? = some y → isLineTerm y = false := by
  intro y he
  cases l with
  | nil => simp at he
  | cons c2 rest =>
    simp only [List.head?_cons, Option.some.injEq] at he
    subst he
    rw [noTrailWs_pair] at h
    have h1 := Bool.and_elim_left h
    rw [hw, Bool.true_and] at h1
    simpa using h1

theorem noTrailWs_not_allWs (c : Char) (l : List Char)
    (h : noTrailWs (c :: l) = true) (hw : isJsWs c = true)
    (hall : ∀ x ∈ l, isJsWs x = true) : False := by
  have hne : (c :: l) ≠ [] := by simp
  have hlast := noTrailWs_getLast (c :: l) h hne
  have hmem := List.getLast_mem hne
  rcases List.mem_cons.mp hmem with he | hm
  · rw [he] at hlast; rw [hw] at hlast; cases hlast
  · rw [hall _ hm] at hlast; cases hlast

theorem noTrailWs_substEdit (P : Char → Bool)
    (hPws : ∀ c, P c = true → isJsWs c = true) {l l2 : List Char}
    (h : SubstEdit P l l2) :
    noTrailWs l = true →
      noTrailWs l2 = true ∧
        (∀ y, isLineTerm y = true → l2.head? = some y → l.head? = some y) := by
  induction h with
  | nil => intro h0; exact ⟨h0, fun _ _ he => he⟩
  | keep c h ih =>
    rename_i lt l2t
    intro hnt
    obtain ⟨ih1, ih2⟩ := ih (noTrailWs_tail c lt hnt)
    refine ⟨?_, fun _ _ he => he⟩
    apply noTrailWs_cons_of_pair c l2t ih1
    intro hw
    cases hl2 : l2t.head? with
    | none =>
      exfalso
      have hnil : l2t = [] := by
        cases l2t with
        | nil => rfl
        | cons b br => simp at hl2
      subst hnil
      exact noTrailWs_not_allWs c lt hnt hw
        (fun x hx => hPws x (substEdit_nil_right P h x hx))
    | some y =>
      refine ⟨y, rfl, ?_⟩
      by_cases ht : isLineTerm y = true
      · have h1 := noTrailWs_head_pair c lt hnt hw y (ih2 y ht hl2)
        rw [ht] at h1
        cases h1
      · exact Bool.eq_false_iff.mpr ht
  | del c hPc h ih =>
    rename_i lt l2t
    intro hnt
    obtain ⟨ih1, ih2⟩ := ih (noTrailWs_tail c lt hnt)
    refine ⟨ih1, ?_⟩
    intro y hy he
    have h1 := noTrailWs_head_pair c lt hnt (hPws c hPc) y (ih2 y hy he)
    rw [hy] at h1
    cases h1
  | subst c o hPc hPo ho h ih =>
    rename_i lt l2t
    intro hnt
    obtain ⟨ih1, ih2⟩ := ih (noTrailWs_tail c lt hnt)
    have hcw : isJsWs c = true := hPws c hPc
    have hmain : noTrailWs (o :: l2t) = true := by
      apply noTrailWs_cons_of_pair o l2t ih1
      intro _
      cases hl2 : l2t.head? with
      | none =>
        exfalso
        have hnil : l2t = [] := by
          cases l2t with
          | nil => rfl
          | cons b br => simp at hl2
        subst hnil
        exact noTrailWs_not_allWs c lt hnt hcw
          (fun x hx => hPws x (substEdit_nil_right P h x hx))
      | some y =>
        refine ⟨y, rfl, ?_⟩
        by_cases ht : isLineTerm y = true
        · have h1 := noTrailWs_head_pair c lt hnt hcw y (ih2 y ht hl2)
          rw [ht] at h1
          cases h1
        · exact Bool.eq_false_iff.mpr ht
    refine ⟨hmain, ?_⟩
    intro y hy he
    simp only [List.head?_cons, Option.some.injEq] at he ⊢
    subst he
    rcases ho with ho | ho
    · rw [ho] at hy
      exact absurd hy (by decide)
    · exact ho.symm

/-! Establishment and fixed-point lemmas for the tag and brace passes. -/

theorem stripTagsF_cons_ne (f : Nat) (c : Char) (rest : List Char)
    (h : ¬ c = '<') :
    stripTagsF (f + 1) (c :: rest) = c :: stripTagsF f rest := by
  rw [stripTagsF, if_neg h]

theorem stripBracesF_cons_ne (f : Nat) (c : Char) (rest : List Char)
    (h : ¬ c = lbrace) :
    stripBracesF (f + 1) (c :: rest) = c :: stripBracesF f rest := by
  rw [stripBracesF, if_neg h]

theorem stripBracesF_sublist (f : Nat) :
    ∀ l : List Char, (stripBracesF f l).Sublist l := by
  induction f using Nat.strong_induction_on with
  | _ f ih =>
    intro l
    match f, l with
    | 0, l => exact List.nil_sublist l
    | f + 1, [] => exact List.Sublist.refl []
    | f + 1, c :: rest =>
      rw [stripBracesF]
      by_cases hc : c = lbrace
      · rw [if_pos hc]
        cases hdw : rest.dropWhile (fun x => !(x = rbrace)) with
        | nil => exact (ih f (Nat.lt_succ_self f) rest).cons₂ c
        | cons g suf =>
          have hsuf : suf.Sublist rest := by
            have h1 : (g :: suf).Sublist rest := hdw ▸ List.dropWhile_sublist _
            exact (List.sublist_cons_self g suf).trans h1
          exact ((ih f (Nat.lt_succ_self f) suf).trans hsuf).cons c
      · rw [if_neg hc]
        exact (ih f (Nat.lt_succ_self f) rest).cons₂ c

theorem dropWhile_ne_nil_of_not_mem (x : Char) (l : List Char)
    (h : ¬ x ∈ l) : l.dropWhile (fun y => !(y = x)) = [] := by
  induction l with
  | nil => rfl
  | cons a rest ih =>
    rw [List.dropWhile]
    have ha : ¬ a = x := fun he => h (he ▸ List.mem_cons_self _ _)
    rw [show (!(a = x : Bool)) = true by simpa using ha]
    exact ih (fun hm => h (List.mem_cons_of_mem _ hm))

theorem noTag_stripTagsF (f : Nat) :
    ∀ l : List Char, l.length ≤ f → noTag (stripTagsF f l) = true := by
  induction f using Nat.strong_induction_on with
  | _ f ih =>
    intro l hl
    match f, l with
    | 0, l => rfl
    | f + 1, [] => rfl
    | f + 1, c :: rest =>
      have hlr : rest.length ≤ f := by
        simp only [List.length_cons] at hl; omega
      rw [stripTagsF]
      by_cases hc : c = '<'
      · rw [if_pos hc]
        cases hdw : rest.dropWhile (fun x => !(x = '>')) with
        | nil =>
          have hnm : ¬ '>' ∈ rest := by
            intro hm
            have := List.takeWhile_append_dropWhile (fun x => !(x = '>')) rest
            rw [hdw, List.append_nil] at this
            have hws := List.mem_takeWhile_imp (p := fun x => !(x = '>'))
              (this ▸ hm)
            simp at hws
          have hX : ¬ '>' ∈ stripTagsF f rest := fun hm =>
            hnm ((stripTagsF_sublist f rest).mem hm)
          apply noTag_of_not_mem
          intro hm
          rcases List.mem_cons.mp hm with he | hm2
          · rw [hc] at he; cases he
          · exact hX hm2
        | cons g suf =>
          show noTag (if (rest.takeWhile (fun x => !(x = '>'))).isEmpty = true
              then c :: stripTagsF f rest
              else stripTagsF f suf) = true
          by_cases hemp : (rest.takeWhile (fun x => !(x = '>'))).isEmpty = true
          · rw [if_pos hemp]
            -- the take-while is empty, so rest starts with '>'
            cases rest with
            | nil => cases hdw
            | cons r0 rr =>
              have hr0 : r0 = '>' := by
                by_cases hq : r0 = '>'
                · exact hq
                · exfalso
                  rw [List.takeWhile_cons_of_pos (by simpa using hq)] at hemp
                  simp at hemp
              subst hr0
              cases f with
              | zero => simp at hlr
              | succ f2 =>
                rw [stripTagsF_cons_ne f2 '>' rr (by decide)]
                rw [noTag_cons, if_pos hc]
                rw [if_pos (by simp)]
                rw [noTag_cons, if_neg (by decide)]
                exact ih f2 (by omega) rr
                  (by simp only [List.length_cons] at hlr; omega)
          · rw [if_neg hemp]
            have hsl : suf.length ≤ f := by
              have h1 := List.takeWhile_append_dropWhile
                (fun x => !(x = '>')) rest
              rw [hdw] at h1
              have h2 := congrArg List.length h1
              simp only [List.length_append, List.length_cons] at h2
              omega
            exact ih f (Nat.lt_succ_self f) suf hsl
      · rw [if_neg hc]
        rw [noTag_cons, if_neg hc]
        exact ih f (Nat.lt_succ_self f) rest hlr

theorem stripTagsF_fix (f : Nat) :
    ∀ l : List Char, l.length ≤ f → noTag l = true → stripTagsF f l = l := by
  induction f using Nat.strong_induction_on with
  | _ f ih =>
    intro l hl hnt
    match f, l with
    | 0, [] => rfl
    | 0, c :: rest => simp at hl
    | f + 1, [] => rfl
    | f + 1, c :: rest =>
      have hlr : rest.length ≤ f := by
        simp only [List.length_cons] at hl; omega
      by_cases hc : c = '<'
      · rw [noTag_cons, if_pos hc] at hnt
        by_cases hh : rest.head? = some '>'
        · rw [if_pos hh] at hnt
          cases rest with
          | nil => simp at hh
          | cons r0 rr =>
            simp only [List.head?_cons, Option.some.injEq] at hh
            subst hh
            subst hc
            have hstep : stripTagsF (f + 1) ('<' :: '>' :: rr) =
                '<' :: stripTagsF f ('>' :: rr) := rfl
            rw [hstep, ih f (Nat.lt_succ_self f) _ hlr hnt]
        · rw [if_neg hh] at hnt
          simp only [Bool.not_eq_true', decide_eq_false_iff_not] at hnt
          have hstep : stripTagsF (f + 1) (c :: rest) =
              c :: stripTagsF f rest := by
            rw [stripTagsF, if_pos hc,
              dropWhile_ne_nil_of_not_mem '>' rest hnt]
          rw [hstep,
            ih f (Nat.lt_succ_self f) rest hlr (noTag_of_not_mem rest hnt)]
      · rw [noTag_cons, if_neg hc] at hnt
        rw [stripTagsF_cons_ne f c rest hc,
          ih f (Nat.lt_succ_self f) rest hlr hnt]

theorem noBrace_stripBracesF (f : Nat) :
    ∀ l : List Char, l.length ≤ f → noBrace (stripBracesF f l) = true := by
  induction f using Nat.strong_induction_on with
  | _ f ih =>
    intro l hl
    match f, l with
    | 0, l => rfl
    | f + 1, [] => rfl
    | f + 1, c :: rest =>
      have hlr : rest.length ≤ f := by
        simp only [List.length_cons] at hl; omega
      rw [stripBracesF]
      by_cases hc : c = lbrace
      · rw [if_pos hc]
        cases hdw : rest.dropWhile (fun x => !(x = rbrace)) with
        | nil =>
          have hnm : ¬ rbrace ∈ rest := by
            intro hm
            have h1 := List.takeWhile_append_dropWhile (fun x => !(x = rbrace)) rest
            rw [hdw, List.append_nil] at h1
            have hws := List.mem_takeWhile_imp (p := fun x => !(x = rbrace))
              (h1 ▸ hm)
            simp at hws
          have hX : ¬ rbrace ∈ stripBracesF f rest := fun hm =>
            hnm ((stripBracesF_sublist f rest).mem hm)
          rw [noBrace_cons, if_pos hc]
          simpa using hX
        | cons g suf =>
          have hsl : suf.length ≤ f := by
            have h1 := List.takeWhile_append_dropWhile (fun x => !(x = rbrace)) rest
            rw [hdw] at h1
            have h2 := congrArg List.length h1
            simp only [List.length_append, List.length_cons] at h2
            omega
          exact ih f (Nat.lt_succ_self f) suf hsl
      · rw [if_neg hc]
        rw [noBrace_cons, if_neg hc]
        exact ih f (Nat.lt_succ_self f) rest hlr

theorem stripBracesF_fix (f : Nat) :
    ∀ l : List Char, l.length ≤ f → noBrace l = true → stripBracesF f l = l := by
  induction f using Nat.strong_induction_on with
  | _ f ih =>
    intro l hl hnb
    match f, l with
    | 0, [] => rfl
    | 0, c :: rest => simp at hl
    | f + 1, [] => rfl
    | f + 1, c :: rest =>
      have hlr : rest.length ≤ f := by
        simp only [List.length_cons] at hl; omega
      by_cases hc : c = lbrace
      · rw [noBrace_cons, if_pos hc] at hnb
        simp only [Bool.not_eq_true', decide_eq_false_iff_not] at hnb
        have hstep : stripBracesF (f + 1) (c :: rest) =
            c :: stripBracesF f rest := by
          rw [stripBracesF, if_pos hc,
            dropWhile_ne_nil_of_not_mem rbrace rest hnb]
        rw [hstep,
          ih f (Nat.lt_succ_self f) rest hlr (noBrace_of_not_mem rest hnb)]
      · rw [noBrace_cons, if_neg hc] at hnb
        rw [stripBracesF_cons_ne f c rest hc,
          ih f (Nat.lt_succ_self f) rest hlr hnb]

theorem noTag_stripBracesF (f : Nat) :
    ∀ l : List Char, l.length ≤ f → noTag l = true →
      noTag (stripBracesF f l) = true := by
  induction f using Nat.strong_induction_on with
  | _ f ih =>
    intro l hl hnt
    match f, l with
    | 0, l => rfl
    | f + 1, [] => rfl
    | f + 1, c :: rest =>
      have hlr : rest.length ≤ f := by
        simp only [List.length_cons] at hl; omega
      by_cases hc : c = lbrace
      · rw [stripBracesF, if_pos hc]
        cases hdw : rest.dropWhile (fun x => !(x = rbrace)) with
        | nil =>
          have hntr := noTag_tail c rest hnt
          show noTag (c :: stripBracesF f rest) = true
          rw [noTag_cons, if_neg (by rw [hc]; decide)]
          exact ih f (Nat.lt_succ_self f) rest hlr hntr
        | cons g suf =>
          have h1 := List.takeWhile_append_dropWhile (fun x => !(x = rbrace)) rest
          rw [hdw] at h1
          have hsl : suf.length ≤ f := by
            have h2 := congrArg List.length h1
            simp only [List.length_append, List.length_cons] at h2
            omega
          have hsufTag : noTag suf = true := by
            have hsuffix : noTag ((rest.takeWhile (fun x => !(x = rbrace)) ++ [g]) ++ suf) = true := by
              rw [List.append_assoc]
              simp only [List.singleton_append]
              rw [h1]
              exact noTag_tail c rest hnt
            exact noTag_suffix _ suf hsuffix
          exact ih f (Nat.lt_succ_self f) suf hsl hsufTag
      · rw [stripBracesF_cons_ne f c rest hc]
        rw [noTag_cons] at hnt ⊢
        by_cases hlt : c = '<'
        · rw [if_pos hlt] at hnt ⊢
          by_cases hh : rest.head? = some '>'
          · rw [if_pos hh] at hnt
            cases rest with
            | nil => simp at hh
            | cons r0 rr =>
              simp only [List.head?_cons, Option.some.injEq] at hh
              subst hh
              cases f with
              | zero => simp at hlr
              | succ f2 =>
                rw [stripBracesF_cons_ne f2 '>' rr (by decide)]
                rw [if_pos (by simp)]
                rw [noTag_cons, if_neg (by decide)]
                have hnt2 : noTag rr = true := noTag_tail '>' rr hnt
                exact ih f2 (by omega) rr
                  (by simp only [List.length_cons] at hlr; omega) hnt2
          · rw [if_neg hh] at hnt
            simp only [Bool.not_eq_true', decide_eq_false_iff_not] at hnt
            have hX : ¬ '>' ∈ stripBracesF f rest := fun hm =>
              hnt ((stripBracesF_sublist f rest).mem hm)
            have hh2 : (stripBracesF f rest).head? ≠ some '>' := by
              intro he
              cases hbr : stripBracesF f rest with
              | nil => rw [hbr] at he; simp at he
              | cons b br =>
                rw [hbr] at he
                simp only [List.head?_cons, Option.some.injEq] at he
                exact hX (hbr ▸ (he ▸ List.mem_cons_self _ _))
            rw [if_neg hh2]
            simpa using hX
        · rw [if_neg hlt] at hnt ⊢
          exact ih f (Nat.lt_succ_self f) rest hlr hnt

/-! Establishment and fixed-point lemmas for the trailing-whitespace pass. -/

theorem lineEndAt_cons (c : Char) (rest : List Char) (m : Nat) :
    lineEndAt (c :: rest) (m + 1) = lineEndAt rest m := by
  rw [lineEndAt, lineEndAt, List.getD_cons_succ]
  have h1 : ((m + 1 = (c :: rest).length) : Bool) = ((m = rest.length) : Bool) := by
    simp [List.length_cons]
  rw [h1]

theorem noTrailWs_ws_lineEnd (l : List Char) (hnt : noTrailWs l = true) :
    ∀ m, 1 ≤ m → isJsWs (l.getD (m - 1) 'x') = true → lineEndAt l m = false := by
  induction l with
  | nil =>
    intro m h1 hws
    rw [List.getD] at hws
    simp at hws
    cases hws
  | cons c rest ih =>
    intro m h1 hws
    match m, h1 with
    | 1, _ =>
      have hc : isJsWs c = true := by
        simpa [List.getD_cons_zero] using hws
      rw [lineEndAt]
      have hlen : ¬ (1 = (c :: rest).length) := by
        intro he
        cases rest with
        | nil =>
          have h2 : (!isJsWs c) = true := hnt
          rw [hc] at h2
          cases h2
        | cons r0 rr => simp [List.length_cons] at he
      have hgd : isLineTerm ((c :: rest).getD 1 'x') = false := by
        rw [List.getD_cons_succ]
        cases rest with
        | nil => decide
        | cons r0 rr =>
          rw [List.getD_cons_zero]
          rw [noTrailWs_pair] at hnt
          have h2 := Bool.and_elim_left hnt
          rw [hc, Bool.true_and] at h2
          simpa using h2
      simp only [Bool.or_eq_false_iff, decide_eq_false_iff_not]
      exact ⟨hlen, hgd⟩
    | m + 2, _ =>
      rw [lineEndAt_cons]
      apply ih (noTrailWs_tail c rest hnt) (m + 1) (by omega)
      simpa [List.getD_cons_succ] using hws

theorem bestMAux_none (l : List Char) (k : Nat) (h : bestMAux l k = none) :
    ∀ m, 1 ≤ m → m ≤ k → lineEndAt l m = false := by
  induction k with
  | zero => intro m h1 h2; omega
  | succ k ih =>
    intro m h1 h2
    rw [bestMAux] at h
    by_cases hle : lineEndAt l (k + 1) = true
    · rw [if_pos hle] at h; cases h
    · rw [if_neg hle] at h
      rcases Nat.lt_or_ge m (k + 1) with hm | hm
      · exact ih h m h1 (by omega)
      · have he : m = k + 1 := by omega
        rw [he]
        simpa using hle

theorem getD_ws_of_lt_run (l : List Char) (i : Nat)
    (h : i < (l.takeWhile isJsWs).length) : isJsWs (l.getD i 'x') = true := by
  induction l generalizing i with
  | nil => simp [List.takeWhile] at h
  | cons c rest ih =>
    by_cases hw : isJsWs c = true
    · rw [List.takeWhile_cons_of_pos hw] at h
      match i with
      | 0 => rw [List.getD_cons_zero]; exact hw
      | i + 1 =>
        rw [List.getD_cons_succ]
        exact ih i (by simp only [List.length_cons] at h; omega)
    · rw [List.takeWhile_cons_of_neg (by simpa using hw)] at h
      simp at h

theorem bestM_eq_none (l : List Char) (hnt : noTrailWs l = true) :
    bestM l = none := by
  cases h : bestM l with
  | none => rfl
  | some m =>
    exfalso
    obtain ⟨h1, h2, h3⟩ := bestM_some l m h
    have hws : isJsWs (l.getD (m - 1) 'x') = true :=
      getD_ws_of_lt_run l (m - 1) (by omega)
    have := noTrailWs_ws_lineEnd l hnt m h1 hws
    rw [h3] at this
    cases this

theorem rstripF_fix (f : Nat) :
    ∀ l : List Char, l.length ≤ f → noTrailWs l = true → rstripF f l = l := by
  induction f using Nat.strong_induction_on with
  | _ f ih =>
    intro l hl hnt
    match f, l with
    | 0, [] => rfl
    | 0, c :: rest => simp at hl
    | f + 1, [] => rfl
    | f + 1, c :: rest =>
      have hlr : rest.length ≤ f := by
        simp only [List.length_cons] at hl; omega
      rw [rstripF_cons]
      by_cases hw : isJsWs c = true
      · rw [if_pos hw, bestM_eq_none (c :: rest) hnt]
        rw [ih f (Nat.lt_succ_self f) rest hlr (noTrailWs_tail c rest hnt)]
      · rw [if_neg hw]
        rw [ih f (Nat.lt_succ_self f) rest hlr (noTrailWs_tail c rest hnt)]

theorem bestM_shift (c : Char) (rest : List Char) (hc : isJsWs c = true)
    (h : bestM (c :: rest) = none) : bestM rest = none := by
  cases hr : bestM rest with
  | none => rfl
  | some m =>
    exfalso
    obtain ⟨h1, h2, h3⟩ := bestM_some rest m hr
    have hk : ((c :: rest).takeWhile isJsWs).length =
        (rest.takeWhile isJsWs).length + 1 := by
      rw [List.takeWhile_cons_of_pos hc]
      simp
    have h4 := bestMAux_none (c :: rest) _ h (m + 1) (by omega) (by omega)
    rw [lineEndAt_cons, h3] at h4
    cases h4

theorem noTrailWs_rstripF (f : Nat) :
    ∀ l : List Char, l.length ≤ f → noTrailWs (rstripF f l) = true := by
  induction f using Nat.strong_induction_on with
  | _ f ih =>
    intro l hl
    match f, l with
    | 0, l => rfl
    | f + 1, [] => rfl
    | f + 1, c :: rest =>
      have hlr : rest.length ≤ f := by
        simp only [List.length_cons] at hl; omega
      rw [rstripF_cons]
      by_cases hw : isJsWs c = true
      · rw [if_pos hw]
        cases hm : bestM (c :: rest) with
        | some m =>
          obtain ⟨h1, -, -⟩ := bestM_some _ m hm
          apply ih f (Nat.lt_succ_self f)
          rw [List.length_drop]
          simp only [List.length_cons] at hl ⊢
          omega
        | none =>
          have hk1 : 1 ≤ ((c :: rest).takeWhile isJsWs).length := by
            rw [List.takeWhile_cons_of_pos hw]
            simp
          have hle1 := bestMAux_none (c :: rest) _ hm 1 (Nat.le_refl 1) hk1
          rw [lineEndAt] at hle1
          simp only [Bool.or_eq_false_iff, decide_eq_false_iff_not] at hle1
          obtain ⟨hlen, hgd⟩ := hle1
          cases rest with
          | nil => simp at hlen
          | cons r0 rr =>
            rw [List.getD_cons_succ, List.getD_cons_zero] at hgd
            apply noTrailWs_cons_of_pair c _ (ih f (Nat.lt_succ_self f) _ hlr)
            intro _
            have hf1 : 1 ≤ f := by
              simp only [List.length_cons] at hlr; omega
            obtain ⟨f2, rfl⟩ : ∃ f2, f = f2 + 1 :=
              ⟨f - 1, by omega⟩
            by_cases hwr : isJsWs r0 = true
            · have hbn : bestM (r0 :: rr) = none := bestM_shift c _ hw hm
              have heq : rstripF (f2 + 1) (r0 :: rr) =
                  r0 :: rstripF f2 rr := by
                rw [rstripF_cons, if_pos hwr, hbn]
              rw [heq]
              exact ⟨r0, rfl, hgd⟩
            · have heq : rstripF (f2 + 1) (r0 :: rr) =
                  r0 :: rstripF f2 rr := by
                rw [rstripF_cons, if_neg hwr]
              rw [heq]
              exact ⟨r0, rfl, hgd⟩
      · rw [if_neg hw]
        apply noTrailWs_cons_of_pair c _ (ih f (Nat.lt_succ_self f) rest hlr)
        intro hcw
        rw [hcw] at hw
        cases hw rfl

/-! Run-collapsing stages: establishment and fixed-point lemmas. -/

theorem noDouble_pair (p : Char → Bool) (c1 c2 : Char) (rest : List Char) :
    noDouble p (c1 :: c2 :: rest) =
      (!(p c1 && p c2) && noDouble p (c2 :: rest)) := rfl

theorem noDouble_tail (p : Char → Bool) (c : Char) (l : List Char)
    (h : noDouble p (c :: l) = true) : noDouble p l = true := by
  match l with
  | [] => rfl
  | d :: rest =>
    rw [noDouble_pair] at h
    exact Bool.and_elim_right h

theorem noDouble_cons_of_head (p : Char → Bool) (c : Char) (l : List Char)
    (hl : noDouble p l = true)
    (hc : ∀ d, l.head? = some d → (p c && p d) = false) :
    noDouble p (c :: l) = true := by
  match l with
  | [] => rfl
  | d :: rest =>
    rw [noDouble_pair, hc d rfl]
    simpa using hl

theorem collapseRunsF_head_nonp (p : Char → Bool) (o : Char) (f : Nat)
    (l : List Char) (hl : ∀ c, l.head? = some c → p c = false) (d : Char)
    (hd : (collapseRunsF p o f l).head? = some d) : p d = false := by
  match f, l with
  | 0, l => simp [collapseRunsF] at hd
  | f + 1, [] => simp [collapseRunsF] at hd
  | f + 1, c :: rest =>
    have hpc : p c = false := hl c rfl
    rw [collapseRunsF_cons, if_neg (by simp [hpc]), List.head?_cons] at hd
    obtain rfl : c = d := Option.some.inj hd
    exact hpc

theorem noDouble_collapseRunsF (p : Char → Bool) (o : Char) (f : Nat) :
    ∀ l : List Char, l.length ≤ f →
      noDouble p (collapseRunsF p o f l) = true := by
  induction f using Nat.strong_induction_on with
  | _ f ih =>
    intro l hl
    match f, l with
    | 0, l => rfl
    | f + 1, [] => rfl
    | f + 1, c :: rest =>
      have hlr : rest.length ≤ f := by
        simp only [List.length_cons] at hl; omega
      rw [collapseRunsF_cons]
      by_cases hp : p c = true
      · rw [if_pos hp]
        apply noDouble_cons_of_head
        · exact ih f (Nat.lt_succ_self f) _
            (le_trans (List.dropWhile_sublist _).length_le hlr)
        · intro d hd
          rw [collapseRunsF_head_nonp p o f _
            (fun e he => head?_dropWhile_false p rest e he) d hd]
          exact Bool.and_false _
      · rw [if_neg hp]
        apply noDouble_cons_of_head
        · exact ih f (Nat.lt_succ_self f) rest hlr
        · intro d hd
          rw [Bool.eq_false_iff.mpr hp]
          exact Bool.false_and _

theorem collapseRunsF_fix (p : Char → Bool) (o : Char) (f : Nat) :
    ∀ l : List Char, l.length ≤ f → noDouble p l = true →
      (∀ c ∈ l, p c = true → c = o) → collapseRunsF p o f l = l := by
  induction f using Nat.strong_induction_on with
  | _ f ih =>
    intro l hl hnd ho
    match f, l with
    | 0, [] => rfl
    | 0, c :: rest => simp at hl
    | f + 1, [] => rfl
    | f + 1, c :: rest =>
      have hlr : rest.length ≤ f := by
        simp only [List.length_cons] at hl; omega
      have hrec : collapseRunsF p o f rest = rest :=
        ih f (Nat.lt_succ_self f) rest hlr (noDouble_tail p c rest hnd)
          (fun e he hpe => ho e (List.mem_cons_of_mem c he) hpe)
      rw [collapseRunsF_cons]
      by_cases hp : p c = true
      · rw [if_pos hp]
        have hco : c = o := ho c (List.mem_cons_self c rest) hp
        have hdw : rest.dropWhile p = rest := by
          cases rest with
          | nil => rfl
          | cons d r2 =>
            have hpd : p d = false := by
              rw [noDouble_pair] at hnd
              have h1 := Bool.and_elim_left hnd
              rw [Bool.not_eq_true'] at h1
              rw [hp, Bool.true_and] at h1
              exact h1
            exact List.dropWhile_cons_of_neg (by simp [hpd])
        rw [hdw, hrec, hco]
      · rw [if_neg hp, hrec]

theorem collapseRunsF_mem (p : Char → Bool) (o : Char) (f : Nat) :
    ∀ l : List Char, ∀ c ∈ collapseRunsF p o f l,
      c = o ∨ (c ∈ l ∧ p c = false) := by
  induction f using Nat.strong_induction_on with
  | _ f ih =>
    intro l c hc
    match f, l with
    | 0, l => cases hc
    | f + 1, [] => cases hc
    | f + 1, c0 :: rest =>
      rw [collapseRunsF_cons] at hc
      by_cases hp : p c0 = true
      · rw [if_pos hp] at hc
        rcases List.mem_cons.mp hc with rfl | hc2
        · exact Or.inl rfl
        · rcases ih f (Nat.lt_succ_self f) _ c hc2 with h1 | ⟨h1, h2⟩
          · exact Or.inl h1
          · exact Or.inr ⟨List.mem_cons_of_mem c0
              ((List.dropWhile_sublist _).subset h1), h2⟩
      · rw [if_neg hp] at hc
        rcases List.mem_cons.mp hc with rfl | hc2
        · exact Or.inr ⟨List.mem_cons_self c rest, Bool.eq_false_iff.mpr hp⟩
        · rcases ih f (Nat.lt_succ_self f) rest c hc2 with h1 | ⟨h1, h2⟩
          · exact Or.inl h1
          · exact Or.inr ⟨List.mem_cons_of_mem c0 h1, h2⟩

theorem collapseRunsF_fix_of_nop (p : Char → Bool) (o : Char) (f : Nat) :
    ∀ l : List Char, l.length ≤ f → (∀ c ∈ l, p c = false) →
      collapseRunsF p o f l = l := by
  induction f using Nat.strong_induction_on with
  | _ f ih =>
    intro l hl hnp
    match f, l with
    | 0, [] => rfl
    | 0, c :: rest => simp at hl
    | f + 1, [] => rfl
    | f + 1, c :: rest =>
      have hlr : rest.length ≤ f := by
        simp only [List.length_cons] at hl; omega
      rw [collapseRunsF_cons, if_neg (by simp [hnp c (List.mem_cons_self c rest)]),
        ih f (Nat.lt_succ_self f) rest hlr
          (fun e he => hnp e (List.mem_cons_of_mem c he))]

theorem noTrailWs_noDouble_nl (l : List Char) (h : noTrailWs l = true) :
    noDouble (fun c => c = '\n') l = true := by
  induction l with
  | nil => rfl
  | cons c rest ih =>
    cases rest with
    | nil => rfl
    | cons c2 r2 =>
      rw [noTrailWs_pair] at h
      have h1 := Bool.and_elim_left h
      have h2 := Bool.and_elim_right h
      rw [noDouble_pair, ih h2, Bool.and_true, Bool.not_eq_true']
      by_cases hc : c = '\n'
      · have h1' : decide (c2 = '\n') = false := by
          rcases (by simpa using h1 : isJsWs c = false ∨ isLineTerm c2 = false)
            with hq | hq
          · rw [show isJsWs c = true from by rw [hc]; decide] at hq
            cases hq
          · refine decide_eq_false ?_
            intro he
            rw [he] at hq
            exact absurd hq (by decide)
        rw [h1', Bool.and_false]
      · rw [decide_eq_false hc, Bool.false_and]

/-! Trim: fixed point given non-whitespace first and last characters. -/

theorem dropWhile_eq_self_of_head (p : Char → Bool) (l : List Char)
    (h : ∀ c, l.head? = some c → p c = false) : l.dropWhile p = l := by
  cases l with
  | nil => rfl
  | cons c rest =>
    exact List.dropWhile_cons_of_neg (by simp [h c rfl])

theorem trimJS_fix (l : List Char)
    (hh : ∀ c, l.head? = some c → isJsWs c = false)
    (hl : ∀ c, l.getLast? = some c → isJsWs c = false) : trimJS l = l := by
  rw [trimJS, dropWhile_eq_self_of_head _ _ hh, dropTrailWs,
    dropWhile_eq_self_of_head _ _
      (fun c hc => hl c (by rw [← List.head?_reverse]; exact hc)),
    List.reverse_reverse]

theorem trimJS_head (l : List Char) (c : Char)
    (h : (trimJS l).head? = some c) : isJsWs c = false := by
  obtain ⟨sfx, he, -⟩ := dropTrailWs_decomp (l.dropWhile isJsWs)
  rw [trimJS] at h
  cases hm : dropTrailWs (l.dropWhile isJsWs) with
  | nil => rw [hm] at h; simp at h
  | cons d t =>
    rw [hm, List.head?_cons] at h
    obtain rfl : d = c := Option.some.inj h
    rw [hm] at he
    apply head?_dropWhile_false isJsWs l
    rw [he]
    rfl

theorem trimJS_getLast (l : List Char) (c : Char)
    (h : (trimJS l).getLast? = some c) : isJsWs c = false := by
  rw [trimJS, dropTrailWs, List.getLast?_reverse] at h
  exact head?_dropWhile_false isJsWs _ c h

theorem stripZwsp_fix (l : List Char) (h : ∀ c ∈ l, ¬ c = zwspChar) :
    stripZwsp l = l := by
  rw [stripZwsp]
  apply List.filter_eq_self.mpr
  intro a ha
  rw [Bool.not_eq_true']
  exact decide_eq_false (h a ha)

theorem isHorizWs_isJsWs (c : Char) (h : isHorizWs c = true) :
    isJsWs c = true := by
  rw [isHorizWs] at h
  rw [isJsWs]
  simp only [Bool.or_eq_true, Bool.and_eq_true, decide_eq_true_eq] at h ⊢
  omega

/-! Assembly: every property needed for a second normalizer pass to be
the identity holds of the first pass's output. -/

theorem cleanSrt_props (x y : List Char)
    (hy : y = trimJS (collapseNl (collapseHoriz (rstripLines (stripZwsp
      (stripBraces (stripTags x))))))) :
    noTag y = true ∧ noBrace y = true ∧ (∀ c ∈ y, ¬ c = zwspChar) ∧
    noTrailWs y = true ∧ (∀ c ∈ y, isHorizWs c = false) := by
  subst hy
  have hPz : ∀ c : Char, (decide (c = zwspChar) : Bool) = true →
      ¬ (c = '<' ∨ c = '>') := by
    intro c hc hor
    have hcz : c = zwspChar := of_decide_eq_true hc
    subst hcz
    rcases hor with h | h
    · exact absurd h (by decide)
    · exact absurd h (by decide)
  have hPzB : ∀ c : Char, (decide (c = zwspChar) : Bool) = true →
      ¬ (c = lbrace ∨ c = rbrace) := by
    intro c hc hor
    have hcz : c = zwspChar := of_decide_eq_true hc
    subst hcz
    rcases hor with h | h
    · exact absurd h (by decide)
    · exact absurd h (by decide)
  have hPw : ∀ c : Char, isJsWs c = true → ¬ (c = '<' ∨ c = '>') := by
    intro c hc hor
    rcases hor with rfl | rfl
    · exact absurd hc (by decide)
    · exact absurd hc (by decide)
  have hPwB : ∀ c : Char, isJsWs c = true → ¬ (c = lbrace ∨ c = rbrace) := by
    intro c hc hor
    rcases hor with rfl | rfl
    · exact absurd hc (by decide)
    · exact absurd hc (by decide)
  obtain ⟨a1, ha1⟩ : ∃ a, a = stripTags x := ⟨_, rfl⟩
  rw [← ha1]
  obtain ⟨a2, ha2⟩ : ∃ a, a = stripBraces a1 := ⟨_, rfl⟩
  rw [← ha2]
  obtain ⟨a3, ha3⟩ : ∃ a, a = stripZwsp a2 := ⟨_, rfl⟩
  rw [← ha3]
  obtain ⟨a4, ha4⟩ : ∃ a, a = rstripLines a3 := ⟨_, rfl⟩
  rw [← ha4]
  obtain ⟨a5, ha5⟩ : ∃ a, a = collapseHoriz a4 := ⟨_, rfl⟩
  rw [← ha5]
  obtain ⟨a6, ha6⟩ : ∃ a, a = collapseNl a5 := ⟨_, rfl⟩
  rw [← ha6]
  have hnt1 : noTag a1 = true := by
    rw [ha1]; exact noTag_stripTagsF x.length x (le_refl _)
  have hnt2 : noTag a2 = true := by
    rw [ha2]; exact noTag_stripBracesF a1.length a1 (le_refl _) hnt1
  have hnb2 : noBrace a2 = true := by
    rw [ha2]; exact noBrace_stripBracesF a1.length a1 (le_refl _)
  have e3 : SubstEdit (fun c => c = zwspChar) a2 a3 := by
    rw [ha3]; exact substEdit_filter a2
  have hnt3 : noTag a3 = true := noTag_substEdit _ hPz e3 hnt2
  have hnb3 : noBrace a3 = true := noBrace_substEdit _ hPzB e3 hnb2
  have hz3 : ∀ c ∈ a3, ¬ c = zwspChar := by
    rw [ha3]
    intro c hc
    have h1 := List.of_mem_filter hc
    simp only [Bool.not_eq_true', decide_eq_false_iff_not] at h1
    exact h1
  have e4 : SubstEdit isJsWs a3 a4 := by
    rw [ha4]; exact substEdit_rstripF a3.length a3 (le_refl _)
  have hnt4 : noTag a4 = true := noTag_substEdit _ hPw e4 hnt3
  have hnb4 : noBrace a4 = true := noBrace_substEdit _ hPwB e4 hnb3
  have hz4 : ∀ c ∈ a4, ¬ c = zwspChar := by
    intro c hc he
    rcases substEdit_mem _ e4 c hc with h1 | h1
    · exact hz3 c h1 he
    · rw [he] at h1
      exact absurd h1 (by decide)
  have hw4 : noTrailWs a4 = true := by
    rw [ha4]; exact noTrailWs_rstripF a3.length a3 (le_refl _)
  have e5 : SubstEdit isJsWs a4 a5 := by
    rw [ha5]
    exact substEdit_collapseRunsF isJsWs isHorizWs isHorizWs_isJsWs
      (by decide) a4.length a4 (le_refl _)
  have hnt5 : noTag a5 = true := noTag_substEdit _ hPw e5 hnt4
  have hnb5 : noBrace a5 = true := noBrace_substEdit _ hPwB e5 hnb4
  have hz5 : ∀ c ∈ a5, ¬ c = zwspChar := by
    intro c hc he
    rcases substEdit_mem _ e5 c hc with h1 | h1
    · exact hz4 c h1 he
    · rw [he] at h1
      exact absurd h1 (by decide)
  have hw5 : noTrailWs a5 = true :=
    (noTrailWs_substEdit isJsWs (fun _ h => h) e5 hw4).1
  have hh5 : ∀ c ∈ a5, isHorizWs c = false := by
    rw [ha5]
    intro c hc
    rcases collapseRunsF_mem isHorizWs ' ' a4.length a4 c hc with rfl | ⟨-, h2⟩
    · decide
    · exact h2
  have ha65 : a6 = a5 := by
    rw [ha6]
    exact collapseRunsF_fix _ '\n' a5.length a5 (le_refl _)
      (noTrailWs_noDouble_nl a5 hw5) (fun c _ hc => of_decide_eq_true hc)
  have e7 : SubstEdit isJsWs a6 (trimJS a6) := substEdit_trimJS a6
  refine ⟨?_, ?_, ?_, ?_, ?_⟩
  · exact noTag_substEdit _ hPw e7 (by rw [ha65]; exact hnt5)
  · exact noBrace_substEdit _ hPwB e7 (by rw [ha65]; exact hnb5)
  · intro c hc he
    have hsub := (trimJS_sublist a6).subset hc
    rw [ha65] at hsub
    exact hz5 c hsub he
  · exact (noTrailWs_substEdit isJsWs (fun _ h => h) e7
      (by rw [ha65]; exact hw5)).1
  · intro c hc
    have hsub := (trimJS_sublist a6).subset hc
    rw [ha65] at hsub
    exact hh5 c hsub

/-- Claim C7: the Text Normalizer is idempotent — for every input string
`x`, `cleanSrtText (cleanSrtText x) = cleanSrtText x`. -/
theorem cleanSrtText_idempotent (x : List Char) :
    cleanSrtText (cleanSrtText x) = cleanSrtText x := by
  obtain ⟨h1, h2, h3, h4, h5⟩ := cleanSrt_props x (cleanSrtText x) rfl
  show trimJS (collapseNl (collapseHoriz (rstripLines (stripZwsp
    (stripBraces (stripTags (cleanSrtText x))))))) = cleanSrtText x
  rw [show stripTags (cleanSrtText x) = cleanSrtText x from
    stripTagsF_fix _ _ (le_refl _) h1]
  rw [show stripBraces (cleanSrtText x) = cleanSrtText x from
    stripBracesF_fix _ _ (le_refl _) h2]
  rw [show stripZwsp (cleanSrtText x) = cleanSrtText x from
    stripZwsp_fix _ h3]
  rw [show rstripLines (cleanSrtText x) = cleanSrtText x from
    rstripF_fix _ _ (le_refl _) h4]
  rw [show collapseHoriz (cleanSrtText x) = cleanSrtText x from
    collapseRunsF_fix_of_nop _ ' ' _ _ (le_refl _) h5]
  rw [show collapseNl (cleanSrtText x) = cleanSrtText x from
    collapseRunsF_fix _ '\n' _ _ (le_refl _)
      (noTrailWs_noDouble_nl _ h4) (fun c _ hc => of_decide_eq_true hc)]
  exact trimJS_fix _ (fun c hc => trimJS_head _ c hc)
    (fun c hc => trimJS_getLast _ c hc)

/-! ## ZIP offset invariant (structural and read lemmas) -/

theorem localHeader_length (f : ZFile) : (localHeader f).length = 30 := by
  simp [localHeader, u16le, u32le]

theorem cdPre_length (f : ZFile) : (cdPre f).length = 42 := by
  simp [cdPre, u16le, u32le]

theorem centralHeader_eq (f : ZFile) (b : Nat) :
    centralHeader f b = cdPre f ++ u32le b := by
  simp [centralHeader, cdPre, List.append_assoc]

theorem centralHeader_length (f : ZFile) (b : Nat) :
    (centralHeader f b).length = 46 := by
  rw [centralHeader_eq, List.length_append, cdPre_length]
  simp [u32le]

theorem localChunk_length (f : ZFile) : (localChunk f).length = lcLen f := by
  rw [localChunk, lcLen]
  simp only [List.length_append, localHeader_length]

theorem eocd_length (c s t : Nat) : (eocd c s t).length = 22 := by
  simp [eocd, u16le, u32le]

theorem cdStart_cons (f : ZFile) (rest : List ZFile) :
    cdStart (f :: rest) = lcLen f + cdStart rest := by
  rw [cdStart, List.map_cons, List.sum_cons]
  rfl

theorem cdSize_cons (f : ZFile) (rest : List ZFile) :
    cdSize (f :: rest) = cdLen f + cdSize rest := by
  rw [cdSize, List.map_cons, List.sum_cons]
  rfl

theorem foldl_addFile (files : List ZFile) :
    ∀ st : ZipState, files.foldl addFile st =
      ⟨st.offset + cdStart files,
       st.chunks ++ files.flatMap (fun f => [localHeader f, f.name, f.data]),
       st.centralDirectory ++ cdEntries st.offset files⟩ := by
  induction files with
  | nil =>
    intro st
    cases st
    simp [cdStart, cdEntries]
  | cons f rest ih =>
    intro st
    rw [List.foldl_cons, ih]
    simp only [addFile, cdStart_cons, List.flatMap_cons, cdEntries,
      ZipState.mk.injEq, lcLen]
    refine ⟨by omega, by simp [List.append_assoc], by simp [List.append_assoc]⟩

theorem foldl_cdStep (es : List (List Nat × List Nat)) :
    ∀ st : ZipState,
      es.foldl
        (fun s e =>
          { offset := s.offset + (e.1.length + e.2.length),
            chunks := s.chunks ++ [e.1, e.2],
            centralDirectory := s.centralDirectory })
        st =
      ⟨st.offset + (es.map (fun e => e.1.length + e.2.length)).sum,
       st.chunks ++ es.flatMap (fun e => [e.1, e.2]),
       st.centralDirectory⟩ := by
  induction es with
  | nil =>
    intro st
    cases st
    simp
  | cons e rest ih =>
    intro st
    rw [List.foldl_cons, ih]
    simp only [List.map_cons, List.sum_cons, List.flatMap_cons,
      ZipState.mk.injEq]
    refine ⟨by omega, by simp [List.append_assoc], trivial⟩

theorem flatten_lcChunks (files : List ZFile) :
    (files.flatMap (fun f => [localHeader f, f.name, f.data])).flatten =
      lcBytes files := by
  induction files with
  | nil => rfl
  | cons f rest ih =>
    simp only [List.flatMap_cons, List.flatten_append, List.flatten_cons,
      List.flatten_nil, ih, lcBytes, localChunk]
    simp [List.append_assoc]

theorem flatten_cdChunks (es : List (List Nat × List Nat)) :
    (es.flatMap (fun e => [e.1, e.2])).flatten = cdBytes es := by
  induction es with
  | nil => rfl
  | cons e rest ih =>
    simp only [List.flatMap_cons, List.flatten_append, List.flatten_cons,
      List.flatten_nil, ih, cdBytes]
    simp [List.append_assoc]

theorem cdEntries_map_len (files : List ZFile) :
    ∀ base : Nat,
      ((cdEntries base files).map (fun e => e.1.length + e.2.length)).sum =
        cdSize files := by
  induction files with
  | nil => intro base; rfl
  | cons f rest ih =>
    intro base
    rw [cdEntries, List.map_cons, List.sum_cons, centralHeader_length, ih,
      cdSize_cons, cdLen]

theorem cdEntries_length (files : List ZFile) :
    ∀ base : Nat, (cdEntries base files).length = files.length := by
  induction files with
  | nil => intro base; rfl
  | cons f rest ih =>
    intro base
    rw [cdEntries, List.length_cons, ih, List.length_cons]

theorem lcBytes_length (files : List ZFile) :
    (lcBytes files).length = cdStart files := by
  induction files with
  | nil => rfl
  | cons f rest ih =>
    rw [lcBytes, List.length_append, localChunk_length, ih, cdStart_cons]

theorem cdBytes_cdEntries_length (files : List ZFile) :
    ∀ base : Nat, (cdBytes (cdEntries base files)).length = cdSize files := by
  induction files with
  | nil => intro base; rfl
  | cons f rest ih =>
    intro base
    rw [cdEntries, cdBytes]
    simp only [List.length_append, centralHeader_length, ih]
    rw [cdSize_cons, cdLen]

theorem buildZip_eq (files : List ZFile) :
    buildZip files = lcBytes files ++
      (cdBytes (cdEntries 0 files) ++
        eocd files.length (cdSize files) (cdStart files)) := by
  rw [buildZip, foldl_addFile]
  simp only [toUint8Array, centralLoop, foldl_cdStep, List.nil_append,
    Nat.zero_add, cdEntries_map_len, cdEntries_length, Nat.add_sub_cancel_left,
    List.flatten_append, List.flatten_cons, List.flatten_nil,
    flatten_lcChunks, flatten_cdChunks, List.append_nil]
  simp [List.append_assoc]

theorem byteAt_append_right (l1 l2 : List Nat) (i : Nat) (h : l1.length ≤ i) :
    byteAt (l1 ++ l2) i = byteAt l2 (i - l1.length) := by
  rw [byteAt, byteAt]
  exact List.getD_append_right l1 l2 0 i h

theorem readU32_append_right (l1 l2 : List Nat) (i : Nat)
    (h : l1.length ≤ i) :
    readU32 (l1 ++ l2) i = readU32 l2 (i - l1.length) := by
  rw [readU32, readU32, byteAt_append_right _ _ _ h,
    byteAt_append_right _ _ _ (by omega), byteAt_append_right _ _ _ (by omega),
    byteAt_append_right _ _ _ (by omega)]
  have e1 : i + 1 - l1.length = i - l1.length + 1 := by omega
  have e2 : i + 2 - l1.length = i - l1.length + 2 := by omega
  have e3 : i + 3 - l1.length = i - l1.length + 3 := by omega
  rw [e1, e2, e3]

theorem readU32_u32le (n : Nat) (rest : List Nat) (h : n < 4294967296) :
    readU32 (u32le n ++ rest) 0 = n := by
  have b0 : byteAt (u32le n ++ rest) 0 = n % 256 := rfl
  have b1 : byteAt (u32le n ++ rest) 1 = n / 256 % 256 := rfl
  have b2 : byteAt (u32le n ++ rest) 2 = n / 65536 % 256 := rfl
  have b3 : byteAt (u32le n ++ rest) 3 = n / 16777216 % 256 := rfl
  rw [readU32, Nat.zero_add, Nat.zero_add, Nat.zero_add, b0, b1, b2, b3]
  omega

theorem centralHeader_read0 (f : ZFile) (b : Nat) (tail : List Nat) :
    readU32 (centralHeader f b ++ tail) 0 = 0x02014b50 := by
  rw [show centralHeader f b ++ tail =
      u32le 0x02014b50 ++ (u16le 20 ++ u16le 20 ++ u16le 0 ++ u16le 0 ++
        u16le f.modTime ++ u16le f.modDate ++ u32le (crc32 f.data) ++
        u32le f.data.length ++ u32le f.data.length ++ u16le f.name.length ++
        u16le 0 ++ u16le 0 ++ u16le 0 ++ u16le 0 ++ u32le 0 ++
        u32le b ++ tail) from by simp [centralHeader, List.append_assoc]]
  exact readU32_u32le _ _ (by omega)

theorem centralHeader_read42 (f : ZFile) (b : Nat) (tail : List Nat)
    (hb : b < 4294967296) :
    readU32 (centralHeader f b ++ tail) 42 = b := by
  rw [centralHeader_eq, List.append_assoc,
    readU32_append_right (cdPre f) _ 42 (by rw [cdPre_length]), cdPre_length]
  have h0 : (42 : Nat) - 42 = 0 := rfl
  rw [h0]
  exact readU32_u32le b tail hb

theorem eocd_read0 (c s t : Nat) : readU32 (eocd c s t) 0 = 0x06054b50 := by
  rw [show eocd c s t =
      u32le 0x06054b50 ++ (u16le 0 ++ u16le 0 ++ u16le c ++ u16le c ++
        u32le s ++ u32le t ++ u16le 0) from by simp [eocd, List.append_assoc]]
  exact readU32_u32le _ _ (by omega)

theorem eocd_read12 (c s t : Nat) (hs : s < 4294967296) :
    readU32 (eocd c s t) 12 = s := by
  rw [show eocd c s t =
      (u32le 0x06054b50 ++ u16le 0 ++ u16le 0 ++ u16le c ++ u16le c) ++
        (u32le s ++ (u32le t ++ u16le 0)) from by
      simp [eocd, List.append_assoc]]
  rw [readU32_append_right _ _ 12 (by simp [u16le, u32le])]
  rw [show (u32le 0x06054b50 ++ u16le 0 ++ u16le 0 ++ u16le c ++
      u16le c).length = 12 from by simp [u16le, u32le]]
  have h0 : (12 : Nat) - 12 = 0 := rfl
  rw [h0]
  exact readU32_u32le s _ hs

theorem eocd_read16 (c s t : Nat) (ht : t < 4294967296) :
    readU32 (eocd c s t) 16 = t := by
  rw [show eocd c s t =
      (u32le 0x06054b50 ++ u16le 0 ++ u16le 0 ++ u16le c ++ u16le c ++
        u32le s) ++ (u32le t ++ u16le 0) from by
      simp [eocd, List.append_assoc]]
  rw [readU32_append_right _ _ 16 (by simp [u16le, u32le])]
  rw [show (u32le 0x06054b50 ++ u16le 0 ++ u16le 0 ++ u16le c ++ u16le c ++
      u32le s).length = 16 from by simp [u16le, u32le]]
  have h0 : (16 : Nat) - 16 = 0 := rfl
  rw [h0]
  exact readU32_u32le t _ ht

theorem localStart_cons_succ (f : ZFile) (rest : List ZFile) (i : Nat) :
    localStart (f :: rest) (i + 1) = lcLen f + localStart rest i := by
  rw [localStart, List.take_succ_cons, List.map_cons, List.sum_cons]
  rfl

theorem cdEntries_reads (files : List ZFile) :
    ∀ (base i : Nat) (tail : List Nat), i < files.length →
      base + localStart files i < 4294967296 →
      readU32 (cdBytes (cdEntries base files) ++ tail)
          (((files.take i).map cdLen).sum) = 0x02014b50 ∧
      readU32 (cdBytes (cdEntries base files) ++ tail)
          (((files.take i).map cdLen).sum + 42) = base + localStart files i := by
  induction files with
  | nil =>
    intro base i tail hi hb
    simp at hi
  | cons f rest ih =>
    intro base i tail hi hb
    match i with
    | 0 =>
      have hls : localStart (f :: rest) 0 = 0 := rfl
      rw [hls] at hb ⊢
      simp only [List.take_zero, List.map_nil, List.sum_nil, Nat.zero_add,
        Nat.add_zero]
      have hbuf : cdBytes (cdEntries base (f :: rest)) ++ tail =
          centralHeader f base ++
            (f.name ++ (cdBytes (cdEntries (base + lcLen f) rest) ++ tail)) := by
        rw [cdEntries, cdBytes]
        simp [List.append_assoc]
      rw [hbuf]
      exact ⟨centralHeader_read0 f base _,
        centralHeader_read42 f base _ (by omega)⟩
    | i + 1 =>
      have hi2 : i < rest.length := by
        simp only [List.length_cons] at hi; omega
      have hls := localStart_cons_succ f rest i
      have hbuf : cdBytes (cdEntries base (f :: rest)) ++ tail =
          (centralHeader f base ++ f.name) ++
            (cdBytes (cdEntries (base + lcLen f) rest) ++ tail) := by
        rw [cdEntries, cdBytes]
        simp [List.append_assoc]
      have hlen : (centralHeader f base ++ f.name).length = cdLen f := by
        rw [List.length_append, centralHeader_length, cdLen]
      have hsum : (((f :: rest).take (i + 1)).map cdLen).sum =
          cdLen f + ((rest.take i).map cdLen).sum := by
        rw [List.take_succ_cons, List.map_cons, List.sum_cons]
      obtain ⟨ihl, ihr⟩ := ih (base + lcLen f) i tail hi2 (by omega)
      constructor
      · rw [hbuf, hsum, readU32_append_right _ _ _ (by omega), hlen]
        rw [show cdLen f + ((rest.take i).map cdLen).sum - cdLen f =
          ((rest.take i).map cdLen).sum from by omega]
        exact ihl
      · rw [hbuf, hsum, readU32_append_right _ _ _ (by omega), hlen]
        rw [show cdLen f + ((rest.take i).map cdLen).sum + 42 - cdLen f =
          ((rest.take i).map cdLen).sum + 42 from by omega]
        rw [ihr, hls]
        omega

theorem drop_len_append (l1 l2 : List Nat) (k : Nat) :
    (l1 ++ l2).drop (l1.length + k) = l2.drop k := by
  rw [← List.drop_drop, List.drop_left]

theorem lcBytes_extract (files : List ZFile) :
    ∀ (i : Nat) (hi : i < files.length) (tail : List Nat),
      ((lcBytes files ++ tail).drop (localStart files i)).take 30 =
        localHeader (files.get ⟨i, hi⟩) := by
  induction files with
  | nil =>
    intro i hi
    simp at hi
  | cons f rest ih =>
    intro i hi tail
    match i with
    | 0 =>
      have h1 : localStart (f :: rest) 0 = 0 := rfl
      rw [h1, List.drop_zero]
      show ((localChunk f ++ lcBytes rest) ++ tail).take 30 = localHeader f
      rw [localChunk, List.append_assoc, List.append_assoc, List.append_assoc,
        ← localHeader_length f, List.take_left]
    | i + 1 =>
      have hi2 : i < rest.length := by
        simp only [List.length_cons] at hi; omega
      have hsplit : lcBytes (f :: rest) ++ tail =
          localChunk f ++ (lcBytes rest ++ tail) := by
        rw [show lcBytes (f :: rest) = localChunk f ++ lcBytes rest from rfl,
          List.append_assoc]
      rw [localStart_cons_succ, hsplit, ← localChunk_length f, drop_len_append]
      exact ih i hi2 tail

theorem sum_map_take_le (g : ZFile → Nat) (l : List ZFile) (i : Nat) :
    ((l.take i).map g).sum ≤ (l.map g).sum := by
  conv_rhs => rw [← List.take_append_drop i l]
  rw [List.map_append, List.sum_append]
  exact Nat.le_add_right _ _

/-- Claim C1: in the buffer produced by `toUint8Array` after `addFile`
over an ordered list of files (total size below 2^32), every central
directory record's local-header-offset field equals the true position of
that file's 30-byte local header (which indeed sits there), and the
end-of-central-directory record's central-directory start and size
fields equal the true first-record position and total record length. -/
theorem zip_offsets (files : List ZFile) (i : Nat) (hi : i < files.length)
    (hb : zipLen files < 4294967296) :
    (buildZip files).length = zipLen files ∧
    readU32 (buildZip files) (cdRecStart files i) = 0x02014b50 ∧
    readU32 (buildZip files) (cdRecStart files i + 42) = localStart files i ∧
    ((buildZip files).drop (localStart files i)).take 30 =
      localHeader (files.get ⟨i, hi⟩) ∧
    readU32 (buildZip files) (cdStart files + cdSize files) = 0x06054b50 ∧
    readU32 (buildZip files) (cdStart files + cdSize files + 12) =
      cdSize files ∧
    readU32 (buildZip files) (cdStart files + cdSize files + 16) =
      cdStart files := by
  have hz : zipLen files = cdStart files + cdSize files + 22 := rfl
  have hls : localStart files i ≤ cdStart files := sum_map_take_le lcLen files i
  have hrs : ((files.take i).map cdLen).sum ≤ cdSize files :=
    sum_map_take_le cdLen files i
  have hlc : (lcBytes files).length = cdStart files := lcBytes_length files
  have hcd : (cdBytes (cdEntries 0 files)).length = cdSize files :=
    cdBytes_cdEntries_length files 0
  obtain ⟨hr0, hr42⟩ := cdEntries_reads files 0 i
    (eocd files.length (cdSize files) (cdStart files)) hi (by omega)
  rw [buildZip_eq]
  refine ⟨?_, ?_, ?_, ?_, ?_, ?_, ?_⟩
  · rw [List.length_append, List.length_append, hlc, hcd, eocd_length]
    omega
  · rw [readU32_append_right _ _ _ (by rw [hlc]; rw [cdRecStart]; omega), hlc]
    rw [show cdRecStart files i - cdStart files =
      ((files.take i).map cdLen).sum from by rw [cdRecStart]; omega]
    exact hr0
  · rw [readU32_append_right _ _ _ (by rw [hlc]; rw [cdRecStart]; omega), hlc]
    rw [show cdRecStart files i + 42 - cdStart files =
      ((files.take i).map cdLen).sum + 42 from by rw [cdRecStart]; omega]
    rw [hr42]
    omega
  · exact lcBytes_extract files i hi _
  · rw [readU32_append_right _ _ _ (by rw [hlc]; omega), hlc]
    rw [show cdStart files + cdSize files - cdStart files = cdSize files
      from by omega]
    rw [readU32_append_right _ _ _ (by rw [hcd]), hcd, Nat.sub_self]
    exact eocd_read0 _ _ _
  · rw [readU32_append_right _ _ _ (by rw [hlc]; omega), hlc]
    rw [show cdStart files + cdSize files + 12 - cdStart files =
      cdSize files + 12 from by omega]
    rw [readU32_append_right _ _ _ (by rw [hcd]; omega), hcd]
    rw [show cdSize files + 12 - cdSize files = 12 from by omega]
    exact eocd_read12 _ _ _ (by omega)
  · rw [readU32_append_right _ _ _ (by rw [hlc]; omega), hlc]
    rw [show cdStart files + cdSize files + 16 - cdStart files =
      cdSize files + 16 from by omega]
    rw [readU32_append_right _ _ _ (by rw [hcd]; omega), hcd]
    rw [show cdSize files + 16 - cdSize files = 16 from by omega]
    exact eocd_read16 _ _ _ (by omega)

theorem zip_offsets_witness :
    (0 < ([⟨[65], [], 0, 0⟩, ⟨[66], [], 0, 0⟩] : List ZFile).length) ∧
    zipLen [⟨[65], [], 0, 0⟩, ⟨[66], [], 0, 0⟩] < 4294967296 ∧
    readU32 (buildZip [⟨[65], [], 0, 0⟩, ⟨[66], [], 0, 0⟩])
      (cdRecStart [⟨[65], [], 0, 0⟩, ⟨[66], [], 0, 0⟩] 0 + 42) =
      localStart [⟨[65], [], 0, 0⟩, ⟨[66], [], 0, 0⟩] 0 :=
  ⟨by decide, by decide,
    (zip_offsets [⟨[65], [], 0, 0⟩, ⟨[66], [], 0, 0⟩] 0 (by decide)
      (by decide)).2.2.1⟩
